import Mathlib

/-!
Shallow embedding of the SISL spec generator (the repository's build script).

The embedding follows the source line by line:
* `norm`, `esc`, `today`, `joinList`, `slugify`, `idify`/`findSuf` model the
  helper functions of the script;
* `phase1` models the first `forEach` of `SISL.build` that merges one
  synthesized bibliography entry per discovered document into the store;
* `expandChars` models the `[[key]]` citation-marker substitution performed on
  `main.innerHTML` (the regex `/\[\[([\w-]+)\]\]/g` replaced by a link, with the
  literal text kept and an error recorded when the key is missing);
* `renderRefs` models the references-section emission;
* `dfnPass` models the `querySelectorAll('dfn')` loop that assigns ids.

Strings are modelled as Lean `String`/`List Char`; the person registry as a
total name map (a missing registry entry crashes the script and is outside the
claims considered here); the wall clock as a function from call index to the
ISO timestamp `new Date().toISOString()` would return.  JavaScript object
stores (`bibliography`, `refs`) are modelled as association lists with
overwrite-on-assign semantics, including the truthiness test `!bibliography[ref]`.
-/

namespace SISL

/-- Character class of the JavaScript regex `\s` (non-unicode mode). -/
def jsWs (c : Char) : Bool :=
  c.val = 0x20 || (0x9 ≤ c.val && c.val ≤ 0xd) || c.val = 0xa0 || c.val = 0x1680 ||
  (0x2000 ≤ c.val && c.val ≤ 0x200a) || c.val = 0x2028 || c.val = 0x2029 ||
  c.val = 0x202f || c.val = 0x205f || c.val = 0x3000 || c.val = 0xfeff

/-- Character class of the JavaScript regex `\w`: ASCII letters, digits, underscore. -/
def wordChar (c : Char) : Bool :=
  c.isAlphanum || c = '_'

/-- Characters allowed in a citation key by the marker regex `[\w-]+`. -/
def keyChar (c : Char) : Bool :=
  wordChar c || c = '-'

/-- JavaScript `Array.prototype.join(sep)`. -/
def joinSep (sep : String) : List String → String
  | [] => ""
  | [s] => s
  | s :: rest => s ++ sep ++ joinSep sep rest

/-- Drop a leading run of JavaScript whitespace (the `^\s+` alternative). -/
def trimWsStart (l : List Char) : List Char := l.dropWhile jsWs

/-- Drop a trailing run of JavaScript whitespace (the `\s+$` alternative). -/
def trimWsEnd (l : List Char) : List Char := (l.reverse.dropWhile jsWs).reverse

/-- The per-character whitespace replace of `norm` (regex `\s`, global, with a
space as replacement). -/
def wsToSp (c : Char) : Char := if jsWs c then ' ' else c

/-- The source's `norm`: `str.replace(/\s/g, ' ').replace(/^\s+|\s+$/g, '')` —
each whitespace character becomes a space, then both ends are trimmed. -/
def norm (s : String) : String :=
  String.mk (trimWsEnd (trimWsStart (s.data.map wsToSp)))

/-- The source's hyphen-run replace (regex: hyphen repeated two or more times,
global): every run of two or more hyphens collapses to a single hyphen. -/
def collapseHyphens : List Char → List Char
  | [] => []
  | [c] => [c]
  | c :: c2 :: cs =>
    if c = '-' ∧ c2 = '-' then collapseHyphens (c2 :: cs)
    else c :: collapseHyphens (c2 :: cs)

/-- First alternative of the source's hyphen-trimming replace (leading-hyphen or
trailing-hyphen, global): remove one leading hyphen. -/
def dropOneLeadingHyphen : List Char → List Char
  | '-' :: cs => cs
  | l => l

/-- Second alternative of the source's hyphen-trimming replace: remove one
trailing hyphen. -/
def dropOneTrailingHyphen (l : List Char) : List Char :=
  if l.getLast? = some '-' then l.dropLast else l

/-- The `txt` computation inside the source's `slugify`: normalize the text
content (`norm`), substitute the literal `'empty'` when that is empty, lower
case, replace every non-word character by a hyphen, collapse hyphen runs, and
drop one leading and one trailing hyphen. -/
def slugTxt (s : String) : String :=
  let n := norm s
  let base := if n = "" then "empty" else n
  let low := base.data.map Char.toLower
  let hyph := low.map (fun c => if wordChar c then c else '-')
  String.mk (dropOneTrailingHyphen (dropOneLeadingHyphen (collapseHyphens hyph)))

/-- The source's `idify`: `[pfx, txt, suf].filter(Boolean).join('-')`.  The
suffix, when present, is a positive number (the loop increments it before each
`idify` call), so it is never filtered out; `pfx`/`txt` are dropped when empty. -/
def idify (pfx txt : String) (suf : Option Nat) : String :=
  joinSep "-" (([pfx, txt].filter (· ≠ "")) ++
    (match suf with
     | none => []
     | some k => [Nat.repr k]))

/-- The `while (doc.getElementById(id))` search loop of `slugify`, starting at
suffix `k`.  `ids` is the set of ids present in the document.  The fuel
`ids.length + 1` used by `slugify` always suffices (proved below). -/
def findSuf (ids : List String) (pfx txt : String) : Nat → Nat → Option String
  | 0, _ => none
  | fuel + 1, k =>
    let id := idify pfx txt (some k)
    if id ∈ ids then findSuf ids pfx txt fuel (k + 1) else some id

/-- An element as `slugify` sees it: an optional explicit `id` attribute and its
text content. -/
structure Elem where
  explicitId : Option String
  text : String
deriving DecidableEq

/-- The source's `slugify(doc, el, pfx, unique)`.  `ids` stands for the set of
ids `doc.getElementById` can currently see.  The `none` fallback branch is dead
code: `findSuf` with fuel `ids.length + 1` always returns a value (see
`findSuf_total` below). -/
def slugify (ids : List String) (el : Elem) (pfx : String) (unique : Bool) : String :=
  match el.explicitId with
  | some i => i
  | none =>
    let txt := slugTxt el.text
    let id0 := idify pfx txt none
    if unique then
      if id0 ∈ ids then
        match findSuf ids pfx txt (ids.length + 1) 1 with
        | some id => id
        | none => id0
      else id0
    else id0

/-- The `querySelectorAll('dfn')` loop: each `dfn` in document order receives
`slugify(doc, dfn, 'dfn', true)` as its id, and `setAttribute('id', ...)` makes
that id visible to later `getElementById` calls.  Returns the per-element
assignments and the final id set. -/
def dfnPass (ids : List String) : List Elem → List (Elem × String) × List String
  | [] => ([], ids)
  | e :: rest =>
    let id := slugify ids e "dfn" true
    let out := dfnPass (id :: ids) rest
    ((e, id) :: out.1, out.2)

/-- Greedy `.+` of the regex `/T.+/`: it consumes to the end of the line
(`.` does not match a newline). -/
def dropToEol (l : List Char) : List Char := l.dropWhile (· ≠ '\n')

/-- One-shot (no `g` flag) `.replace(/T.+/, '')`: the first `T` followed by at
least one non-newline character is removed together with the rest of its line. -/
def stripTimeSuffix : List Char → List Char
  | [] => []
  | [c] => [c]
  | c :: c2 :: cs =>
    if c = 'T' ∧ c2 ≠ '\n' then dropToEol (c2 :: cs)
    else c :: stripTimeSuffix (c2 :: cs)

/-- The source's `today()` applied to the ISO timestamp `now` the clock returns:
`new Date().toISOString().replace(/T.+/, '')`. -/
def today (now : String) : String := String.mk (stripTimeSuffix now.data)

/-- JavaScript `str.replace(/c/g, rep)` for a single target character. -/
def replaceChar (tgt : Char) (rep : List Char) : List Char → List Char
  | [] => []
  | c :: cs => (if c = tgt then rep else [c]) ++ replaceChar tgt rep cs

/-- The source's `esc`:
`str.replace(/&/g, '&amp;').replace(/</g, '&lt;').replace(/"/g, '&quot;')`. -/
def esc (s : String) : String :=
  String.mk (replaceChar '"' "&quot;".data (replaceChar '<' "&lt;".data
    (replaceChar '&' "&amp;".data s.data)))

/-- Single-pass character escaping, used to state that `esc` escapes each
occurrence exactly once. -/
def escCharOnce (c : Char) : List Char :=
  if c = '&' then "&amp;".data
  else if c = '<' then "&lt;".data
  else if c = '"' then "&quot;".data
  else [c]

/-- The image of a string under the single-pass escape. -/
def escOnce (s : String) : String :=
  String.mk ((s.data.map escCharOnce).flatten)

/-- The source's `joinList`: one name as is, two joined with `' & '`, otherwise
every name joined with `', '` after prefixing `'& '` to the last one. -/
def joinList (authors : List String) : String :=
  match authors with
  | [a] => a
  | [a, b] => joinSep " & " [a, b]
  | l => joinSep ", " (l.enum.map (fun p => if p.1 = l.length - 1 then "& " ++ p.2 else p.2))

/-- The source's `htmlifyReference({author, title, date, url})` template. -/
def htmlifyReference (author title date url : String) : String :=
  esc author ++ ". <a href=\"" ++ esc url ++ "\"><cite>" ++ esc title ++
    "</cite></a>. " ++ esc date ++ ". URL:&nbsp;<a href=\"" ++ esc url ++ "\">" ++
    esc url ++ "</a>"

/-- A discovered source document: short name (from the file name), title,
author ids, and the serialized body content the citation pass rewrites. -/
structure Spec where
  shortname : String
  title : String
  authors : List String
  content : String
deriving DecidableEq

/-- The bibliography store: citation key to pre-rendered HTML fragment. -/
abbrev Bib := List (String × String)

/-- JavaScript object assignment `bibliography[k] = v`: overwrite when the key
exists, append otherwise. -/
def bibSet (bib : Bib) (k v : String) : Bib :=
  if bib.any (fun p => p.1 = k) then bib.map (fun p => if p.1 = k then (k, v) else p)
  else bib ++ [(k, v)]

/-- The truthiness test `bibliography[ref]` used by the expander: a missing key
and an empty-string fragment are both falsy. -/
def bibGet (bib : Bib) (k : String) : Option String :=
  match bib.lookup k with
  | some v => if v = "" then none else some v
  | none => none

/-- The synthesized self-citation entry for one document (the object literal
passed to `htmlifyReference` in the metadata loop), given the registry `people`
(author id to display name) and the ISO timestamp `now` of this `today()` call. -/
def selfEntry (people : String → String) (sp : Spec) (now : String) : String :=
  htmlifyReference (joinList (sp.authors.map people)) sp.title (today now)
    ("https://dasl.ing/" ++ sp.shortname ++ ".html")

/-- Phase 1 of `SISL.build`: the `Object.keys(specs).forEach` loop that merges
every document's self-citation entry into the bibliography before any document
is content-processed.  `clock i` is the ISO timestamp observed by the `today()`
call of the `i`-th iteration. -/
def phase1 (people : String → String) (clock : Nat → String) : Nat → Bib → List Spec → Bib
  | _, bib, [] => bib
  | i, bib, sp :: rest =>
    phase1 people clock (i + 1) (bibSet bib sp.shortname (selfEntry people sp (clock i))) rest

/-- Result of the citation-marker pass over one document's serialized content:
the rewritten text, the unresolved-citation error messages in scan order, and
the `refs` object (key to fragment, first-assignment order). -/
structure ExpandResult where
  out : List Char
  errors : List String
  refs : List (String × String)
deriving DecidableEq

/-- Greedy match of `[\w-]+`: the maximal run of key characters and the rest. -/
def takeKey : List Char → List Char × List Char
  | [] => ([], [])
  | c :: cs =>
    if keyChar c then
      let p := takeKey cs
      (c :: p.1, p.2)
    else ([], c :: cs)

/-- The unresolved-citation message `No "${ref}" entry in the bibliography.`. -/
def errMsg (key : String) : String := "No \"" ++ key ++ "\" entry in the bibliography."

/-- The replacement `[<a href="#ref-${ref}" class="ref">${ref}</a>]`. -/
def linkChars (key : String) : List Char :=
  ("[<a href=\"#ref-" ++ key ++ "\" class=\"ref\">" ++ key ++ "</a>]").data

/-- The citation-marker substitution
`main.innerHTML.replace(/\[\[([\w-]+)\]\]/g, ...)` of `SISL.build`: scan left to
right; at each position try to match two brackets, a maximal nonempty run of
word/hyphen characters, and two closing brackets; on a failed match advance one
character.  A matched key absent (or falsy) in the bibliography records an
error and keeps the literal text; a present key becomes a reference link and is
recorded in `refs`. -/
def expandAux (bib : Bib) : Nat → List Char → ExpandResult
  | 0, l => ⟨l, [], []⟩
  | _ + 1, [] => ⟨[], [], []⟩
  | fuel + 1, '[' :: '[' :: rest =>
    (match takeKey rest with
     | (k0 :: ks, ']' :: ']' :: r) =>
       let key := String.mk (k0 :: ks)
       (match bibGet bib key with
        | none =>
          let t := expandAux bib fuel r
          ⟨'[' :: '[' :: ((k0 :: ks) ++ ']' :: ']' :: t.out), errMsg key :: t.errors, t.refs⟩
        | some frag =>
          let t := expandAux bib fuel r
          ⟨linkChars key ++ t.out, t.errors, (key, frag) :: t.refs.filter (fun p => p.1 ≠ key)⟩)
     | _ =>
       let t := expandAux bib fuel ('[' :: rest)
       ⟨'[' :: t.out, t.errors, t.refs⟩)
  | fuel + 1, c :: cs =>
    let t := expandAux bib fuel cs
    ⟨c :: t.out, t.errors, t.refs⟩

/-- The scanner applied with sufficient fuel (every step consumes at least one
character, so `l.length` suffices; the fuel-exhausted branch is unreachable —
see `expandAux_congr` below). -/
def expandChars (bib : Bib) (l : List Char) : ExpandResult := expandAux bib l.length l

/-- Lexicographic order on character lists by code point, the comparison the
default `Array.prototype.sort()` performs on the keys (code-unit order; the
keys match `[\w-]+` and so are ASCII). -/
def charListLe : List Char → List Char → Bool
  | [], _ => true
  | _ :: _, [] => false
  | a :: as, b :: bs =>
    if a.toNat < b.toNat then true
    else if a.toNat = b.toNat then charListLe as bs
    else false

/-- The key order used by the references-section sort. -/
def keyLe (a b : String) : Bool := charListLe a.data b.data

/-- The references-section emission of `SISL.build`: nothing when no key was
used; otherwise one `dt`/`dd` pair per used key in sorted key order, the `dt`
carrying id `ref-<key>` and text `[<key>]`, the `dd` receiving the stored
fragment as raw innerHTML.  Each entry is modelled as
(dt id, dt text, dd innerHTML). -/
def renderRefs (refs : List (String × String)) : Option (List (String × String × String)) :=
  if refs = [] then none
  else some (((refs.map Prod.fst).insertionSort (fun a b => keyLe a b = true)).map (fun k =>
    ("ref-" ++ k, "[" ++ k ++ "]", (refs.lookup k).getD "")))

/-- The two-phase `SISL.build` on the parts the claims concern: phase 1 merges
every document's self-citation entry into the store, then every document's
content is expanded against that closed store and its references section is
rendered.  Output per document: shortname, expansion result, references
section. -/
def build (people : String → String) (clock : Nat → String) (bib0 : Bib) (specs : List Spec) :
    List (String × ExpandResult × Option (List (String × String × String))) :=
  let bibF := phase1 people clock 0 bib0 specs
  specs.map (fun sp =>
    let r := expandChars bibF sp.content.data
    (sp.shortname, r, renderRefs r.refs))

/-- Collapse every run of JavaScript whitespace into a single space — the
normalization step as the specification words it. -/
def collapseWs : List Char → List Char
  | [] => []
  | [c] => if jsWs c then [' '] else [c]
  | c :: c2 :: cs =>
    if jsWs c then
      (if jsWs c2 then collapseWs (c2 :: cs) else ' ' :: collapseWs (c2 :: cs))
    else c :: collapseWs (c2 :: cs)

/-- Normalization exactly as claim C3 words it: collapse runs of whitespace to
single spaces, trim the ends. -/
def specNormalize (s : String) : String :=
  String.mk (trimWsEnd (trimWsStart (collapseWs s.data)))

/-- The claim C3 slug pipeline, followed word for word: normalize whitespace
(collapsing runs); substitute the placeholder token when empty; lowercase;
replace every non-word character with a hyphen; collapse repeated hyphens; trim
leading and trailing hyphens; prefix the namespace token `dfn` joined by a
hyphen. -/
def specSlugC3 (s : String) : String :=
  let n := specNormalize s
  let base := if n = "" then "empty" else n
  let low := base.data.map Char.toLower
  let hyph := low.map (fun c => if wordChar c then c else '-')
  let trimmed := ((((collapseHyphens hyph).dropWhile (· = '-')).reverse.dropWhile (· = '-')).reverse)
  "dfn" ++ "-" ++ String.mk trimmed

/-- The amended C3 pipeline: identical to `specSlugC3` except that when the
processed text is empty the identifier is the bare namespace token `dfn`,
with no trailing hyphen. -/
def specSlugC3Amended (s : String) : String :=
  let n := specNormalize s
  let base := if n = "" then "empty" else n
  let low := base.data.map Char.toLower
  let hyph := low.map (fun c => if wordChar c then c else '-')
  let trimmed := ((((collapseHyphens hyph).dropWhile (· = '-')).reverse.dropWhile (· = '-')).reverse)
  if trimmed = [] then "dfn" else "dfn" ++ "-" ++ String.mk trimmed

/-! Proof-helper definitions (not part of the source translation): a canonical
view of the slug pipelines and a decimal value function used to prove `Nat.repr`
injective. -/

/-- The composite per-character action of the lowercase and hyphenation stages
of the slug pipelines. -/
def slugChar (c : Char) : Char :=
  if wordChar (Char.toLower c) then Char.toLower c else '-'

/-- The maximal hyphen-free words of a character list, in order, empty runs
skipped. -/
def tokens : List Char → List (List Char)
  | [] => []
  | '-' :: cs => tokens cs
  | c :: cs => (c :: cs.takeWhile (· ≠ '-')) :: tokens (cs.dropWhile (· ≠ '-'))
termination_by l => l.length
decreasing_by
  all_goals simp_wf
  all_goals
    have h : List.Sublist (cs.dropWhile (fun x => !decide (x = '-'))) cs :=
      List.dropWhile_sublist _
  all_goals have h2 := h.length_le
  all_goals omega

/-- Words joined by single hyphens. -/
def joinTokens : List (List Char) → List Char
  | [] => []
  | [w] => w
  | w :: ws => w ++ '-' :: joinTokens ws

/-- Decimal value of a digit character. -/
def digitVal (c : Char) : Nat := c.toNat - 48

/-- Decimal value of a digit-character list (most significant first). -/
def digitsVal (l : List Char) : Nat := l.foldl (fun a c => 10 * a + digitVal c) 0

/-! Helper lemmas. -/

theorem joinSep_cons₂ (sep s t : String) (r : List String) :
    joinSep sep (s :: t :: r) = s ++ sep ++ joinSep sep (t :: r) := by
  simp [joinSep]

theorem joinSep_append_singleton (sep x : String) :
    ∀ l : List String, l ≠ [] → joinSep sep (l ++ [x]) = joinSep sep l ++ sep ++ x := by
  intro l
  induction l with
  | nil => intro h; exact absurd rfl h
  | cons s t ih =>
    intro _
    cases t with
    | nil => simp [joinSep]
    | cons b t' =>
      have h2 := ih (by simp)
      simp only [List.cons_append] at h2 ⊢
      rw [joinSep_cons₂, joinSep_cons₂, h2]
      simp [String.append_assoc]

theorem enumFrom_amp (z : String) :
    ∀ (l : List String) (n t : Nat), t = n + l.length →
      (List.enumFrom n (l ++ [z])).map
        (fun p => if p.1 = t then "& " ++ p.2 else p.2) = l ++ ["& " ++ z] := by
  intro l
  induction l with
  | nil =>
    intro n t ht
    simp only [List.nil_append, List.enumFrom, List.map, List.length_nil] at ht ⊢
    rw [if_pos (by omega)]
  | cons a l' ih =>
    intro n t ht
    simp only [List.cons_append, List.enumFrom, List.map, List.length_cons,
      List.append_eq] at ht ⊢
    rw [if_neg (by omega), ih (n + 1) t (by omega)]

theorem replaceChar_append (tgt : Char) (rep : List Char) :
    ∀ a b : List Char, replaceChar tgt rep (a ++ b) =
      replaceChar tgt rep a ++ replaceChar tgt rep b := by
  intro a b
  induction a with
  | nil => simp [replaceChar]
  | cons c cs ih => simp [replaceChar, ih]

theorem escChain_single (c : Char) :
    replaceChar '"' "&quot;".data (replaceChar '<' "&lt;".data
      (if c = '&' then "&amp;".data else [c])) = escCharOnce c := by
  by_cases h1 : c = '&'
  · subst h1; decide
  · rw [if_neg h1]
    unfold escCharOnce
    rw [if_neg h1]
    by_cases h2 : c = '<'
    · subst h2; decide
    · rw [if_neg h2]
      have step : replaceChar '<' "&lt;".data [c] = [c] := by
        simp [replaceChar, h2]
      rw [step]
      by_cases h3 : c = '"'
      · subst h3; decide
      · rw [if_neg h3]
        simp [replaceChar, h3]

theorem joinList_catchall (z : String) (L : List String) (hL : L ≠ [])
    (hred : joinList (L ++ [z]) = joinSep ", " ((List.enumFrom 0 (L ++ [z])).map
      (fun p => if p.1 = (L ++ [z]).length - 1 then "& " ++ p.2 else p.2))) :
    joinList (L ++ [z]) = joinSep ", " L ++ ", & " ++ z := by
  rw [hred, enumFrom_amp z L 0 ((L ++ [z]).length - 1) (by simp [List.length_append]),
    joinSep_append_singleton ", " _ L hL]
  rw [String.append_assoc, ← String.append_assoc ", " "& " z,
    (by decide : (", " ++ "& " : String) = ", & "), ← String.append_assoc]

theorem esc_eq_escOnce (s : String) : esc s = escOnce s := by
  unfold esc escOnce
  congr 1
  induction s.data with
  | nil => simp [replaceChar]
  | cons c cs ih =>
    have hcons : replaceChar '&' "&amp;".data (c :: cs) =
        (if c = '&' then "&amp;".data else [c]) ++ replaceChar '&' "&amp;".data cs := by
      simp [replaceChar]
    rw [hcons, replaceChar_append, replaceChar_append]
    simp only [List.map_cons, List.flatten_cons]
    rw [escChain_single, ih]

theorem lookup_cons_self (k v : String) (t : Bib) : ((k, v) :: t).lookup k = some v := by
  rw [List.lookup_cons]
  simp

theorem lookup_cons_ne (k k' v : String) (t : Bib) (h : k' ≠ k) :
    ((k, v) :: t).lookup k' = t.lookup k' := by
  rw [List.lookup_cons]
  have hb : (k' == k) = false := by simpa using h
  rw [hb]

theorem lookup_map_overwrite (k v : String) :
    ∀ bib : Bib, bib.any (fun p => p.1 = k) = true →
      (bib.map (fun p => if p.1 = k then (k, v) else p)).lookup k = some v := by
  intro bib
  induction bib with
  | nil => simp
  | cons p t ih =>
    obtain ⟨pk, pv⟩ := p
    intro hany
    by_cases hp : pk = k
    · subst hp
      simp only [List.map_cons, if_pos rfl]
      exact lookup_cons_self pk v _
    · simp only [List.any_cons, decide_eq_true_eq, Bool.or_eq_true] at hany
      have ht : t.any (fun p => p.1 = k) = true := by
        rcases hany with h | h
        · exact absurd h hp
        · exact h
      simp only [List.map_cons, if_neg hp]
      rw [lookup_cons_ne pk k pv _ (fun hc => hp hc.symm)]
      exact ih ht

theorem lookup_append_of_none (k : String) :
    ∀ (l₁ l₂ : Bib), l₁.lookup k = none → (l₁ ++ l₂).lookup k = l₂.lookup k := by
  intro l₁ l₂
  induction l₁ with
  | nil => simp
  | cons p t ih =>
    obtain ⟨pk, pv⟩ := p
    intro h
    by_cases hp : k = pk
    · subst hp
      rw [lookup_cons_self] at h
      simp at h
    · rw [lookup_cons_ne pk k pv _ hp] at h
      rw [List.cons_append, lookup_cons_ne pk k pv _ hp]
      exact ih h

theorem lookup_eq_none_of_not_any (k : String) :
    ∀ bib : Bib, bib.any (fun p => p.1 = k) = false → bib.lookup k = none := by
  intro bib
  induction bib with
  | nil => simp
  | cons p t ih =>
    obtain ⟨pk, pv⟩ := p
    intro h
    simp only [List.any_cons, Bool.or_eq_false_iff, decide_eq_false_iff_not] at h
    rw [lookup_cons_ne pk k pv _ (fun hc => h.1 hc.symm)]
    exact ih h.2

theorem lookup_bibSet_self (bib : Bib) (k v : String) :
    (bibSet bib k v).lookup k = some v := by
  unfold bibSet
  split
  · exact lookup_map_overwrite k v bib (by assumption)
  · rename_i hfalse
    have hf : bib.any (fun p => p.1 = k) = false := (Bool.not_eq_true _) ▸ hfalse
    rw [lookup_append_of_none k bib _ (lookup_eq_none_of_not_any k bib hf)]
    exact lookup_cons_self k v []

theorem lookup_map_overwrite_other (k v k' : String) (hne : k' ≠ k) :
    ∀ bib : Bib,
      (bib.map (fun p => if p.1 = k then (k, v) else p)).lookup k' = bib.lookup k' := by
  intro bib
  induction bib with
  | nil => simp
  | cons p t ih =>
    obtain ⟨pk, pv⟩ := p
    by_cases hp : pk = k
    · subst hp
      simp only [List.map_cons, eq_self_iff_true, if_true]
      rw [lookup_cons_ne pk k' v _ hne, lookup_cons_ne pk k' pv _ hne]
      exact ih
    · simp only [List.map_cons, if_neg hp]
      by_cases hq : k' = pk
      · subst hq
        rw [lookup_cons_self, lookup_cons_self]
      · rw [lookup_cons_ne pk k' pv _ hq, lookup_cons_ne pk k' pv _ hq]
        exact ih

theorem lookup_append_singleton_other (k v k' : String) (hne : k' ≠ k) :
    ∀ bib : Bib, (bib ++ [(k, v)]).lookup k' = bib.lookup k' := by
  intro bib
  induction bib with
  | nil =>
    simp only [List.nil_append]
    rw [lookup_cons_ne k k' v _ hne, List.lookup_nil]
  | cons p t ih =>
    obtain ⟨pk, pv⟩ := p
    by_cases hq : k' = pk
    · subst hq
      rw [List.cons_append, lookup_cons_self, lookup_cons_self]
    · rw [List.cons_append, lookup_cons_ne pk k' pv _ hq, lookup_cons_ne pk k' pv _ hq]
      exact ih

theorem lookup_bibSet_other (bib : Bib) (k v k' : String) (hne : k' ≠ k) :
    (bibSet bib k v).lookup k' = bib.lookup k' := by
  unfold bibSet
  split
  · exact lookup_map_overwrite_other k v k' hne bib
  · exact lookup_append_singleton_other k v k' hne bib

theorem phase1_lookup_of_not_mem (people : String → String) (clock : Nat → String)
    (key : String) :
    ∀ (specs : List Spec) (i : Nat) (bib : Bib), key ∉ specs.map Spec.shortname →
      (phase1 people clock i bib specs).lookup key = bib.lookup key := by
  intro specs
  induction specs with
  | nil => intro i bib _; rfl
  | cons s rest ih =>
    intro i bib hmem
    simp only [List.map_cons, List.mem_cons, not_or] at hmem
    simp only [phase1]
    rw [ih (i + 1) _ hmem.2, lookup_bibSet_other _ _ _ _ hmem.1]

theorem phase1_lookup (people : String → String) (clock : Nat → String) :
    ∀ (specs : List Spec) (i : Nat) (bib : Bib) (j : Nat) (sp : Spec),
      (specs.map Spec.shortname).Nodup → specs[j]? = some sp →
      (phase1 people clock i bib specs).lookup sp.shortname =
        some (selfEntry people sp (clock (i + j))) := by
  intro specs
  induction specs with
  | nil => intro i bib j sp _ hj; simp at hj
  | cons s rest ih =>
    intro i bib j sp hnd hj
    simp only [List.map_cons, List.nodup_cons] at hnd
    cases j with
    | zero =>
      simp only [List.getElem?_cons_zero, Option.some.injEq] at hj
      subst hj
      simp only [phase1, Nat.add_zero]
      rw [phase1_lookup_of_not_mem people clock _ rest (i + 1) _ hnd.1]
      exact lookup_bibSet_self bib _ _
    | succ j' =>
      simp only [List.getElem?_cons_succ] at hj
      simp only [phase1]
      rw [ih (i + 1) _ j' sp hnd.2 hj]
      have harith : i + 1 + j' = i + (j' + 1) := by omega
      rw [harith]

theorem htmlifyReference_ne_empty (a t d u : String) :
    htmlifyReference a t d u ≠ "" := by
  intro h
  have h2 := congrArg String.length h
  simp only [htmlifyReference, String.length_append] at h2
  have hlit : String.length "</a>" = 4 := by decide
  have hlit0 : String.length "" = 0 := by decide
  rw [hlit, hlit0] at h2
  omega

theorem selfEntry_ne_empty (people : String → String) (sp : Spec) (now : String) :
    selfEntry people sp now ≠ "" :=
  htmlifyReference_ne_empty _ _ _ _

theorem stripTimeSuffix_append (tail : List Char) (c : Char) (hc : c ≠ '\n')
    (htail : '\n' ∉ tail) :
    ∀ date : List Char, 'T' ∉ date →
      stripTimeSuffix (date ++ 'T' :: c :: tail) = date := by
  intro date
  induction date with
  | nil =>
    intro _
    show stripTimeSuffix ('T' :: c :: tail) = []
    simp only [stripTimeSuffix]
    rw [if_pos (⟨trivial, hc⟩ : True ∧ c ≠ '\n')]
    unfold dropToEol
    apply List.dropWhile_eq_nil_iff.mpr
    intro x hx
    rcases List.mem_cons.mp hx with h | h
    · subst h
      simpa using hc
    · have hxn : x ≠ '\n' := fun he => htail (he ▸ h)
      simpa using hxn
  | cons d ds ih =>
    intro hT
    have hd : d ≠ 'T' := fun h => hT (by simp [h])
    have hds : 'T' ∉ ds := fun h => hT (by simp [h])
    have hrec := ih hds
    simp only [List.cons_append]
    rcases hcons : ds ++ 'T' :: c :: tail with _ | ⟨e, es⟩
    · exact absurd hcons (by simp)
    · simp only [stripTimeSuffix]
      rw [if_neg (fun hand => hd hand.1)]
      rw [← hcons, hrec]

theorem bibGet_phase1 (people : String → String) (clock : Nat → String)
    (specs : List Spec) (bib : Bib) (j : Nat) (sp : Spec)
    (hnd : (specs.map Spec.shortname).Nodup) (hj : specs[j]? = some sp) :
    bibGet (phase1 people clock 0 bib specs) sp.shortname =
      some (selfEntry people sp (clock j)) := by
  unfold bibGet
  rw [phase1_lookup people clock specs 0 bib j sp hnd hj]
  simp only [Nat.zero_add]
  rw [if_neg (selfEntry_ne_empty people sp (clock j))]

theorem takeKey_all (key : List Char) (hkey : ∀ c ∈ key, keyChar c = true) :
    ∀ (c : Char), keyChar c = false → ∀ r, takeKey (key ++ c :: r) = (key, c :: r) := by
  induction key with
  | nil =>
    intro c hc r
    simp [takeKey, hc]
  | cons k ks ih =>
    intro c hc r
    have hk : keyChar k = true := hkey k (by simp)
    have ihr := ih (fun x hx => hkey x (by simp [hx])) c hc r
    simp [takeKey, hk, ihr]

theorem takeKey_lens : ∀ l : List Char,
    (takeKey l).1.length + (takeKey l).2.length = l.length := by
  intro l
  induction l with
  | nil => simp [takeKey]
  | cons a as ih =>
    simp only [takeKey]
    split
    · simp only [List.length_cons]
      omega
    · simp

theorem expandAux_congr (bib : Bib) :
    ∀ (f1 : Nat) (l : List Char), l.length ≤ f1 → ∀ f2 : Nat, l.length ≤ f2 →
      expandAux bib f1 l = expandAux bib f2 l := by
  intro f1 l
  refine expandAux.induct bib
    (fun f1 l => l.length ≤ f1 → ∀ f2 : Nat, l.length ≤ f2 →
      expandAux bib f1 l = expandAux bib f2 l) ?_ ?_ ?_ ?_ ?_ ?_ f1 l
  · intro l h1 f2 h2
    have hl : l = [] := List.length_eq_zero.mp (by omega)
    subst hl
    cases f2 with
    | zero => rfl
    | succ g => rw [expandAux.eq_1, expandAux.eq_2]
  · intro fuel h1 f2 h2
    cases f2 with
    | zero => rw [expandAux.eq_1, expandAux.eq_2]
    | succ g => rw [expandAux.eq_2, expandAux.eq_2]
  · intro fuel rest k0 ks r htk key hnone ih h1 f2 h2
    have hnone2 : bibGet bib (String.mk (k0 :: ks)) = none := hnone
    have hlen := takeKey_lens rest
    rw [htk] at hlen
    simp only [List.length_cons] at hlen h1 h2
    cases f2 with
    | zero => omega
    | succ g =>
      rw [expandAux.eq_3, expandAux.eq_3, htk]
      simp only [hnone2]
      rw [ih (by omega) g (by omega)]
  · intro fuel rest k0 ks r htk key frag hsome ih h1 f2 h2
    have hsome2 : bibGet bib (String.mk (k0 :: ks)) = some frag := hsome
    have hlen := takeKey_lens rest
    rw [htk] at hlen
    simp only [List.length_cons] at hlen h1 h2
    cases f2 with
    | zero => omega
    | succ g =>
      rw [expandAux.eq_3, expandAux.eq_3, htk]
      simp only [hsome2]
      rw [ih (by omega) g (by omega)]
  · intro fuel rest hfail ih h1 f2 h2
    simp only [List.length_cons] at h1 h2
    cases f2 with
    | zero => omega
    | succ g =>
      rw [expandAux.eq_3, expandAux.eq_3]
      split
      · rename_i k0 ks r heq
        exact absurd heq (fun h => hfail k0 ks r h)
      · simp only []
        rw [ih (by simp only [List.length_cons]; omega) g
          (by simp only [List.length_cons]; omega)]
  · intro fuel c cs hplain ih h1 f2 h2
    simp only [List.length_cons] at h1 h2
    cases f2 with
    | zero => omega
    | succ g =>
      rw [expandAux.eq_4 bib fuel c cs hplain, expandAux.eq_4 bib g c cs hplain]
      rw [ih (by omega) g (by omega)]

theorem expandChars_eq_none_case (bib : Bib) (rest : List Char) (k0 : Char)
    (ks r : List Char) (htk : takeKey rest = (k0 :: ks, ']' :: ']' :: r))
    (hnone : bibGet bib (String.mk (k0 :: ks)) = none) :
    expandChars bib ('[' :: '[' :: rest) =
      ⟨'[' :: '[' :: ((k0 :: ks) ++ ']' :: ']' :: (expandChars bib r).out),
       errMsg (String.mk (k0 :: ks)) :: (expandChars bib r).errors,
       (expandChars bib r).refs⟩ := by
  have hlen := takeKey_lens rest
  rw [htk] at hlen
  simp only [List.length_cons] at hlen
  unfold expandChars
  simp only [List.length_cons]
  rw [expandAux.eq_3, htk]
  simp only [hnone]
  rw [expandAux_congr bib (rest.length + 1) r (by omega) r.length le_rfl]

theorem expandChars_eq_some_case (bib : Bib) (rest : List Char) (k0 : Char)
    (ks r : List Char) (frag : String)
    (htk : takeKey rest = (k0 :: ks, ']' :: ']' :: r))
    (hsome : bibGet bib (String.mk (k0 :: ks)) = some frag) :
    expandChars bib ('[' :: '[' :: rest) =
      ⟨linkChars (String.mk (k0 :: ks)) ++ (expandChars bib r).out,
       (expandChars bib r).errors,
       (String.mk (k0 :: ks), frag) ::
         (expandChars bib r).refs.filter (fun p => p.1 ≠ String.mk (k0 :: ks))⟩ := by
  have hlen := takeKey_lens rest
  rw [htk] at hlen
  simp only [List.length_cons] at hlen
  unfold expandChars
  simp only [List.length_cons]
  rw [expandAux.eq_3, htk]
  simp only [hsome]
  rw [expandAux_congr bib (rest.length + 1) r (by omega) r.length le_rfl]

theorem expandChars_eq_fail_case (bib : Bib) (rest : List Char)
    (hfail : ∀ (k0 : Char) (ks r : List Char),
      takeKey rest = (k0 :: ks, ']' :: ']' :: r) → False) :
    expandChars bib ('[' :: '[' :: rest) =
      ⟨'[' :: (expandChars bib ('[' :: rest)).out,
       (expandChars bib ('[' :: rest)).errors,
       (expandChars bib ('[' :: rest)).refs⟩ := by
  unfold expandChars
  simp only [List.length_cons]
  rw [expandAux.eq_3]
  split
  · rename_i k0 ks r heq
    exact absurd heq (fun h => hfail k0 ks r h)
  · rfl

theorem expandChars_eq_plain (bib : Bib) (c : Char) (cs : List Char)
    (hplain : ∀ rest : List Char, c = '[' → cs = '[' :: rest → False) :
    expandChars bib (c :: cs) =
      ⟨c :: (expandChars bib cs).out, (expandChars bib cs).errors,
       (expandChars bib cs).refs⟩ := by
  unfold expandChars
  simp only [List.length_cons]
  rw [expandAux.eq_4 bib cs.length c cs hplain]

theorem refsAux_mem_bibGet (bib : Bib) :
    ∀ (fuel : Nat) (l : List Char) (k f : String),
      (k, f) ∈ (expandAux bib fuel l).refs → bibGet bib k = some f := by
  intro fuel l
  refine expandAux.induct bib
    (fun fuel l => ∀ k f : String,
      (k, f) ∈ (expandAux bib fuel l).refs → bibGet bib k = some f)
    ?_ ?_ ?_ ?_ ?_ ?_ fuel l
  · intro l k f hmem
    rw [expandAux.eq_1] at hmem
    simp at hmem
  · intro fuel k f hmem
    rw [expandAux.eq_2] at hmem
    simp at hmem
  · intro fuel rest k0 ks r htk key hnone ih k f hmem
    have hnone2 : bibGet bib (String.mk (k0 :: ks)) = none := hnone
    rw [expandAux.eq_3, htk] at hmem
    simp only [hnone2] at hmem
    exact ih k f hmem
  · intro fuel rest k0 ks r htk key frag hsome ih k f hmem
    have hsome2 : bibGet bib (String.mk (k0 :: ks)) = some frag := hsome
    rw [expandAux.eq_3, htk] at hmem
    simp only [hsome2] at hmem
    rcases List.mem_cons.mp hmem with hhead | htail
    · obtain ⟨h1, h2⟩ := Prod.mk.injEq _ _ _ _ ▸ hhead
      subst h1
      subst h2
      exact hsome2
    · exact ih k f (List.mem_filter.mp htail).1
  · intro fuel rest hfail ih k f hmem
    rw [expandAux.eq_3] at hmem
    split at hmem
    · rename_i k0 ks r heq
      exact absurd heq (fun h => hfail k0 ks r h)
    · exact ih k f hmem
  · intro fuel c cs hplain ih k f hmem
    rw [expandAux.eq_4 bib fuel c cs hplain] at hmem
    exact ih k f hmem

theorem refs_mem_bibGet (bib : Bib) (l : List Char) (k f : String) :
    (k, f) ∈ (expandChars bib l).refs → bibGet bib k = some f :=
  refsAux_mem_bibGet bib l.length l k f

theorem expandChars_marker_miss (bib : Bib) (key : String) (rest : List Char)
    (hne : key ≠ "") (hkc : ∀ c ∈ key.data, keyChar c = true)
    (habs : bibGet bib key = none) :
    expandChars bib ('[' :: '[' :: (key.data ++ ']' :: ']' :: rest)) =
      ⟨'[' :: '[' :: (key.data ++ ']' :: ']' :: (expandChars bib rest).out),
       errMsg key :: (expandChars bib rest).errors,
       (expandChars bib rest).refs⟩ := by
  obtain ⟨k0, ks, hk⟩ : ∃ k0 ks, key.data = k0 :: ks := by
    cases hd : key.data with
    | nil =>
      have hkey0 : key = "" := by
        cases key with
        | mk d =>
          simp only at hd
          rw [hd]
      exact absurd hkey0 hne
    | cons a b => exact ⟨a, b, rfl⟩
  have heta : String.mk (k0 :: ks) = key := by rw [← hk]
  have htk2 : takeKey (key.data ++ ']' :: ']' :: rest) = (k0 :: ks, ']' :: ']' :: rest) := by
    rw [takeKey_all key.data hkc ']' (by decide), hk]
  have hnone2 : bibGet bib (String.mk (k0 :: ks)) = none := by rw [heta]; exact habs
  rw [expandChars_eq_none_case bib _ k0 ks rest htk2 hnone2]
  rw [← hk]

theorem expandChars_marker_hit (bib : Bib) (key frag : String) (rest : List Char)
    (hne : key ≠ "") (hkc : ∀ c ∈ key.data, keyChar c = true)
    (hget : bibGet bib key = some frag) :
    expandChars bib ('[' :: '[' :: (key.data ++ ']' :: ']' :: rest)) =
      ⟨linkChars key ++ (expandChars bib rest).out,
       (expandChars bib rest).errors,
       (key, frag) :: (expandChars bib rest).refs.filter (fun p => p.1 ≠ key)⟩ := by
  obtain ⟨k0, ks, hk⟩ : ∃ k0 ks, key.data = k0 :: ks := by
    cases hd : key.data with
    | nil =>
      have hkey0 : key = "" := by
        cases key with
        | mk d =>
          simp only at hd
          rw [hd]
      exact absurd hkey0 hne
    | cons a b => exact ⟨a, b, rfl⟩
  have heta : String.mk (k0 :: ks) = key := by rw [← hk]
  have htk2 : takeKey (key.data ++ ']' :: ']' :: rest) = (k0 :: ks, ']' :: ']' :: rest) := by
    rw [takeKey_all key.data hkc ']' (by decide), hk]
  have hget2 : bibGet bib (String.mk (k0 :: ks)) = some frag := by rw [heta]; exact hget
  rw [expandChars_eq_some_case bib _ k0 ks rest frag htk2 hget2]
  rw [heta]

theorem charListLe_total : ∀ x y : List Char, charListLe x y = true ∨ charListLe y x = true := by
  intro x
  induction x with
  | nil => intro y; left; rfl
  | cons c cs ih =>
    intro y
    cases y with
    | nil => right; rfl
    | cons d ds =>
      rcases Nat.lt_trichotomy c.toNat d.toNat with h | h | h
      · left
        simp [charListLe, h]
      · rcases ih ds with h2 | h2
        · left
          simp [charListLe, h, Nat.lt_irrefl, h2]
        · right
          simp [charListLe, h.symm, Nat.lt_irrefl, h2]
      · right
        simp [charListLe, h]

theorem charListLe_trans : ∀ x y z : List Char,
    charListLe x y = true → charListLe y z = true → charListLe x z = true := by
  intro x
  induction x with
  | nil => intro y z _ _; rfl
  | cons a as ih =>
    intro y z hxy hyz
    cases y with
    | nil => simp [charListLe] at hxy
    | cons b bs =>
      cases z with
      | nil => simp [charListLe] at hyz
      | cons c cs =>
        simp only [charListLe] at hxy hyz ⊢
        split_ifs at hxy hyz ⊢ <;> try rfl
        all_goals try omega
        all_goals exact ih bs cs hxy hyz

theorem keyLe_total : ∀ a b : String, keyLe a b = true ∨ keyLe b a = true :=
  fun a b => charListLe_total a.data b.data

theorem keyLe_trans : ∀ a b c : String,
    keyLe a b = true → keyLe b c = true → keyLe a c = true :=
  fun a b c => charListLe_trans a.data b.data c.data

instance : IsTotal String (fun a b => keyLe a b = true) := ⟨keyLe_total⟩

instance : IsTrans String (fun a b => keyLe a b = true) := ⟨keyLe_trans⟩

theorem digitVal_digitChar : ∀ d : Nat, d < 10 → digitVal (Nat.digitChar d) = d := by
  decide

theorem toDigitsCore_append (f : Nat) :
    ∀ (n : Nat) (l : List Char),
      Nat.toDigitsCore 10 f n l = Nat.toDigitsCore 10 f n [] ++ l := by
  induction f with
  | zero => intro n l; simp [Nat.toDigitsCore]
  | succ f ih =>
    intro n l
    simp only [Nat.toDigitsCore]
    by_cases h : n / 10 = 0
    · simp [h]
    · simp only [h, if_neg h]
      rw [ih (n / 10) [Nat.digitChar (n % 10)], ih (n / 10) (Nat.digitChar (n % 10) :: l)]
      simp

theorem digitsVal_append_singleton (l : List Char) (c : Char) :
    digitsVal (l ++ [c]) = 10 * digitsVal l + digitVal c := by
  unfold digitsVal
  rw [List.foldl_append]
  rfl

theorem digitsVal_toDigitsCore (f : Nat) :
    ∀ n : Nat, n < f → digitsVal (Nat.toDigitsCore 10 f n []) = n := by
  induction f with
  | zero => intro n h; omega
  | succ f ih =>
    intro n h
    simp only [Nat.toDigitsCore]
    by_cases h10 : n / 10 = 0
    · rw [if_pos h10]
      have hn : n < 10 := by omega
      have : digitsVal [Nat.digitChar (n % 10)] = n % 10 := by
        unfold digitsVal
        simp [digitVal_digitChar (n % 10) (by omega)]
      rw [this, Nat.mod_eq_of_lt hn]
    · rw [if_neg h10]
      rw [toDigitsCore_append f (n / 10) [Nat.digitChar (n % 10)]]
      rw [digitsVal_append_singleton, ih (n / 10) (by omega),
        digitVal_digitChar (n % 10) (by omega)]
      omega

theorem digitsVal_repr (n : Nat) : digitsVal (Nat.repr n).data = n := by
  show digitsVal (Nat.toDigits 10 n).asString.data = n
  have hd : (Nat.toDigits 10 n).asString.data = Nat.toDigits 10 n := rfl
  rw [hd]
  exact digitsVal_toDigitsCore (n + 1) n (by omega)

theorem repr_injective (m n : Nat) (h : Nat.repr m = Nat.repr n) : m = n := by
  have h2 := congrArg (fun s => digitsVal s.data) h
  simpa [digitsVal_repr] using h2

theorem repr_ne_empty (n : Nat) : Nat.repr n ≠ "" := by
  intro h
  have h2 : n = 0 := by
    have := congrArg (fun s => digitsVal s.data) h
    simpa [digitsVal_repr] using this
  subst h2
  exact absurd h (by decide)

theorem string_ext (a b : String) (h : a.data = b.data) : a = b := by
  cases a
  cases b
  exact congrArg String.mk h

theorem idify_some_eq (pfx txt : String) (k : Nat) :
    idify pfx txt (some k) =
      (if ([pfx, txt].filter (· ≠ "")) = [] then ""
       else joinSep "-" ([pfx, txt].filter (· ≠ "")) ++ "-") ++ Nat.repr k := by
  unfold idify
  rcases hps : [pfx, txt].filter (· ≠ "") with _ | ⟨p, ps⟩
  · rw [if_pos rfl]
    show joinSep "-" [Nat.repr k] = "" ++ Nat.repr k
    have h0 : ("" : String) ++ Nat.repr k = Nat.repr k :=
      string_ext _ _ (by simp [String.data_append])
    rw [h0]
    rfl
  · rw [if_neg (by simp)]
    rw [joinSep_append_singleton "-" (Nat.repr k) (p :: ps) (by simp)]

theorem idify_some_inj (pfx txt : String) (k k' : Nat)
    (h : idify pfx txt (some k) = idify pfx txt (some k')) : k = k' := by
  rw [idify_some_eq, idify_some_eq] at h
  have h2 := congrArg String.data h
  simp only [String.data_append] at h2
  exact repr_injective k k' (string_ext _ _ (List.append_cancel_left h2))

theorem length_pos_of_ne_empty (s : String) (h : s ≠ "") : 0 < s.length := by
  rcases hd : s.data with _ | ⟨c, cs⟩
  · exact absurd (string_ext s "" hd) h
  · show 0 < s.data.length
    rw [hd]
    simp

theorem idify_none_ne_some (pfx txt : String) (hp : pfx ≠ "") (k : Nat) :
    idify pfx txt none ≠ idify pfx txt (some k) := by
  intro h
  have hps : [pfx, txt].filter (· ≠ "") ≠ [] := by
    simp only [List.filter]
    by_cases ht : txt = "" <;> simp [hp, ht]
  rw [idify_some_eq, if_neg hps] at h
  have hbare : idify pfx txt none = joinSep "-" ([pfx, txt].filter (· ≠ "")) := by
    unfold idify
    rw [List.append_nil]
  rw [hbare] at h
  have h2 := congrArg String.length h
  rw [String.length_append, String.length_append] at h2
  have h3 := length_pos_of_ne_empty (Nat.repr k) (repr_ne_empty k)
  have h4 : String.length "-" = 1 := by decide
  rw [h4] at h2
  omega

theorem findSuf_spec (ids : List String) (pfx txt : String) :
    ∀ (fuel k m : Nat), k ≤ m → m - k < fuel →
      (∀ i, k ≤ i → i < m → idify pfx txt (some i) ∈ ids) →
      idify pfx txt (some m) ∉ ids →
      findSuf ids pfx txt fuel k = some (idify pfx txt (some m)) := by
  intro fuel
  induction fuel with
  | zero => intro k m h1 h2 _ _; omega
  | succ fuel ih =>
    intro k m hkm hfuel hin hout
    by_cases hk : k = m
    · subst hk
      simp only [findSuf]
      rw [if_neg hout]
    · have hklt : k < m := by omega
      simp only [findSuf]
      rw [if_pos (hin k le_rfl hklt)]
      exact ih (k + 1) m (by omega) (by omega) (fun i hi1 hi2 => hin i (by omega) hi2) hout

theorem exists_fresh_suffix (ids : List String) (pfx txt : String) :
    ∃ j, j < ids.length + 1 ∧ idify pfx txt (some (j + 1)) ∉ ids := by
  by_contra hall
  push_neg at hall
  have hsub : ((List.range (ids.length + 1)).map
      (fun j => idify pfx txt (some (j + 1)))) ⊆ ids := by
    intro x hx
    obtain ⟨j, hj, heq⟩ := List.mem_map.mp hx
    rw [← heq]
    exact hall j (List.mem_range.mp hj)
  have hnd : ((List.range (ids.length + 1)).map
      (fun j => idify pfx txt (some (j + 1)))).Nodup := by
    refine List.Nodup.map ?_ (List.nodup_range _)
    intro a b hab
    have := idify_some_inj pfx txt (a + 1) (b + 1) hab
    omega
  have hle := (List.Nodup.subperm hnd hsub).length_le
  simp only [List.length_map, List.length_range] at hle
  omega

theorem findSuf_total (ids : List String) (pfx txt : String) :
    ∃ id, findSuf ids pfx txt (ids.length + 1) 1 = some id ∧ id ∉ ids := by
  obtain ⟨j, hj, hfresh⟩ := exists_fresh_suffix ids pfx txt
  have hex : ∃ i, idify pfx txt (some (i + 1)) ∉ ids := ⟨j, hfresh⟩
  have hbound : Nat.find hex ≤ j := Nat.find_min' hex hfresh
  refine ⟨idify pfx txt (some (Nat.find hex + 1)),
    findSuf_spec ids pfx txt (ids.length + 1) 1 (Nat.find hex + 1) (by omega)
      (by omega) ?_ (Nat.find_spec hex), Nat.find_spec hex⟩
  intro i hi1 him
  have hmin := Nat.find_min hex (show i - 1 < Nat.find hex by omega)
  have heq : i - 1 + 1 = i := by omega
  rw [heq] at hmin
  exact not_not.mp hmin
/-! Claim theorems. -/

/-- C5: a references section exists exactly when at least one citation key was
resolved in the document; its entries are the used keys in sorted
(lexicographic, code-point) order, each rendered as a `dt` with id `ref-<key>`
and text `[<key>]` and a `dd` holding the stored citation fragment injected as
raw markup; every used key's fragment is exactly the one stored in the closed
bibliography. -/
theorem c5_references_section (bib : Bib) (content : List Char) :
    (renderRefs (expandChars bib content).refs = none ↔
      (expandChars bib content).refs = []) ∧
    (∀ l, renderRefs (expandChars bib content).refs = some l →
      ∃ ks : List String,
        ks.Perm ((expandChars bib content).refs.map Prod.fst) ∧
        List.Sorted (fun a b => keyLe a b = true) ks ∧
        l = ks.map (fun k => ("ref-" ++ k, "[" ++ k ++ "]",
          ((expandChars bib content).refs.lookup k).getD ""))) ∧
    (∀ k f, (k, f) ∈ (expandChars bib content).refs → bibGet bib k = some f) := by
  refine ⟨?_, ?_, fun k f => refs_mem_bibGet bib content k f⟩
  · by_cases h : (expandChars bib content).refs = [] <;> simp [renderRefs, h]
  · intro l hl
    by_cases h : (expandChars bib content).refs = []
    · simp [renderRefs, h] at hl
    · rw [renderRefs, if_neg h] at hl
      exact ⟨((expandChars bib content).refs.map Prod.fst).insertionSort
          (fun a b => keyLe a b = true),
        List.perm_insertionSort _ _, List.sorted_insertionSort _ _,
        (Option.some.injEq _ _ ▸ hl).symm⟩

/-- Witness for C5 at a concrete store and content that uses the keys `b` and
`a` in that scan order: the section exists, is sorted by key, and injects the
stored fragments. -/
theorem c5_references_section_witness :
    renderRefs (expandChars [("b", "B1"), ("a", "A1")]
        ("x [[b]] y [[a]]" : String).data).refs =
      some [("ref-a", "[a]", "A1"), ("ref-b", "[b]", "B1")] ∧
    (∃ ks : List String,
      ks.Perm ((expandChars [("b", "B1"), ("a", "A1")]
        ("x [[b]] y [[a]]" : String).data).refs.map Prod.fst) ∧
      List.Sorted (fun a b => keyLe a b = true) ks ∧
      [("ref-a", "[a]", "A1"), ("ref-b", "[b]", "B1")] =
        ks.map (fun k => ("ref-" ++ k, "[" ++ k ++ "]",
          ((expandChars [("b", "B1"), ("a", "A1")]
            ("x [[b]] y [[a]]" : String).data).refs.lookup k).getD ""))) :=
  ⟨by decide,
    (c5_references_section [("b", "B1"), ("a", "A1")]
      ("x [[b]] y [[a]]" : String).data).2.1
      [("ref-a", "[a]", "A1"), ("ref-b", "[b]", "B1")] (by decide)⟩

/-- C1: phase 1 merges every document's self-citation into the store before any
expansion happens, so for any listing order a marker `[[B]]` at the head of
document A's content resolves to B's synthesized entry — also when B comes
after A.  The store lookup succeeds, A's build output is computed against the
completed store, the marker becomes the citation link, and B's entry enters A's
used-reference set. -/
theorem c1_two_phase_closure (bib0 : Bib) (people : String → String)
    (clock : Nat → String) (specs : List Spec) (jA jB : Nat) (A B : Spec)
    (restA : List Char)
    (hA : specs[jA]? = some A) (hB : specs[jB]? = some B)
    (hnd : (specs.map Spec.shortname).Nodup)
    (hkne : B.shortname ≠ "") (hkc : ∀ c ∈ B.shortname.data, keyChar c = true)
    (hcontent : A.content.data = '[' :: '[' :: (B.shortname.data ++ ']' :: ']' :: restA)) :
    bibGet (phase1 people clock 0 bib0 specs) B.shortname =
      some (selfEntry people B (clock jB)) ∧
    (A.shortname, expandChars (phase1 people clock 0 bib0 specs) A.content.data,
      renderRefs (expandChars (phase1 people clock 0 bib0 specs) A.content.data).refs) ∈
      build people clock bib0 specs ∧
    (expandChars (phase1 people clock 0 bib0 specs) A.content.data).out =
      linkChars B.shortname ++
        (expandChars (phase1 people clock 0 bib0 specs) restA).out ∧
    (B.shortname, selfEntry people B (clock jB)) ∈
      (expandChars (phase1 people clock 0 bib0 specs) A.content.data).refs := by
  have hbib := bibGet_phase1 people clock specs bib0 jB B hnd hB
  have hhit := expandChars_marker_hit (phase1 people clock 0 bib0 specs) B.shortname
    (selfEntry people B (clock jB)) restA hkne hkc hbib
  refine ⟨hbib, ?_, ?_, ?_⟩
  · simp only [build]
    exact List.mem_map_of_mem _ (List.getElem?_mem hA)
  · rw [hcontent, hhit]
  · rw [hcontent, hhit]
    exact List.mem_cons_self _ _

/-- Witness for C1 at a concrete two-document corpus in which document `a`
(listed first) cites document `b` (listed second). -/
theorem c1_two_phase_closure_witness :
    bibGet (phase1 (fun _ => "R") (fun _ => "2024-03-05T10:00:00.000Z") 0 []
        [⟨"a", "TA", ["r"], "[[b]] x"⟩, ⟨"b", "TB", ["r"], ""⟩]) "b" =
      some (selfEntry (fun _ => "R") ⟨"b", "TB", ["r"], ""⟩ "2024-03-05T10:00:00.000Z") ∧
    (expandChars (phase1 (fun _ => "R") (fun _ => "2024-03-05T10:00:00.000Z") 0 []
        [⟨"a", "TA", ["r"], "[[b]] x"⟩, ⟨"b", "TB", ["r"], ""⟩])
        ("[[b]] x" : String).data).out =
      linkChars "b" ++
        (expandChars (phase1 (fun _ => "R") (fun _ => "2024-03-05T10:00:00.000Z") 0 []
          [⟨"a", "TA", ["r"], "[[b]] x"⟩, ⟨"b", "TB", ["r"], ""⟩]) (" x" : String).data).out ∧
    ("b", selfEntry (fun _ => "R") ⟨"b", "TB", ["r"], ""⟩ "2024-03-05T10:00:00.000Z") ∈
      (expandChars (phase1 (fun _ => "R") (fun _ => "2024-03-05T10:00:00.000Z") 0 []
        [⟨"a", "TA", ["r"], "[[b]] x"⟩, ⟨"b", "TB", ["r"], ""⟩])
        ("[[b]] x" : String).data).refs := by
  have h := c1_two_phase_closure [] (fun _ => "R") (fun _ => "2024-03-05T10:00:00.000Z")
    [⟨"a", "TA", ["r"], "[[b]] x"⟩, ⟨"b", "TB", ["r"], ""⟩] 0 1
    ⟨"a", "TA", ["r"], "[[b]] x"⟩ ⟨"b", "TB", ["r"], ""⟩ (" x" : String).data
    (by decide) (by decide) (by decide) (by decide) (by decide) (by decide)
  exact ⟨h.1, h.2.2.1, h.2.2.2⟩

/-- C4: a citation marker whose key is absent from the closed bibliography
store records an unresolved-citation error, leaves the literal marker text
unchanged in the output, continues processing the rest of the content, and
contributes no references-section entry for that key (the key never enters the
used-reference set, for any content). -/
theorem c4_unresolved_marker (bib : Bib) (key : String) (rest : List Char)
    (hne : key ≠ "") (hkc : ∀ c ∈ key.data, keyChar c = true)
    (habs : bibGet bib key = none) :
    expandChars bib ('[' :: '[' :: (key.data ++ ']' :: ']' :: rest)) =
      ⟨'[' :: '[' :: (key.data ++ ']' :: ']' :: (expandChars bib rest).out),
       errMsg key :: (expandChars bib rest).errors,
       (expandChars bib rest).refs⟩ ∧
    (∀ content : List Char, key ∉ (expandChars bib content).refs.map Prod.fst) := by
  refine ⟨expandChars_marker_miss bib key rest hne hkc habs, fun content hmem => ?_⟩
  obtain ⟨p, hp, hp1⟩ := List.mem_map.mp hmem
  have h2 := refs_mem_bibGet bib content p.1 p.2 (by simpa using hp)
  rw [hp1, habs] at h2
  exact Option.noConfusion h2

/-- Witness for C4 at a concrete store and content: `[[rfc9999]]` with no such
key, followed by further content, in a store holding only the key `good`. -/
theorem c4_unresolved_marker_witness :
    ("rfc9999" : String) ≠ "" ∧
    (∀ c ∈ ("rfc9999" : String).data, keyChar c = true) ∧
    bibGet [("good", "G")] "rfc9999" = none ∧
    expandChars [("good", "G")] ('[' :: '[' :: (("rfc9999" : String).data ++ ']' :: ']' :: ("!" : String).data)) =
      ⟨'[' :: '[' :: (("rfc9999" : String).data ++ ']' :: ']' ::
          (expandChars [("good", "G")] ("!" : String).data).out),
       errMsg "rfc9999" :: (expandChars [("good", "G")] ("!" : String).data).errors,
       (expandChars [("good", "G")] ("!" : String).data).refs⟩ ∧
    "rfc9999" ∉ (expandChars [("good", "G")] ("see [[rfc9999]] ok" : String).data).refs.map Prod.fst :=
  ⟨by decide, by decide, by decide,
    (c4_unresolved_marker [("good", "G")] "rfc9999" ("!" : String).data
      (by decide) (by decide) (by decide)).1,
    (c4_unresolved_marker [("good", "G")] "rfc9999" ("!" : String).data
      (by decide) (by decide) (by decide)).2 ("see [[rfc9999]] ok" : String).data⟩

/-- C6 (counterexample): on the three names `A`, `B`, `C` the source's
`joinList` produces `A, B, & C`, with a comma before the ampersand, not the
`A, B & C` the claim prescribes. -/
theorem c6_joinList_counterexample :
    joinList ["A", "B", "C"] = "A, B, & C" ∧ joinList ["A", "B", "C"] ≠ "A, B & C" :=
  ⟨by decide, by decide⟩

/-- C6 (amended): for every non-empty list of author display names, the
synthesized author field is: a single name unchanged; two names joined with
an ampersand; three or more names joined with comma-space, the last name
prefixed with `& ` — so a comma does precede the ampersand
(three names A, B, C yield `A, B, & C`). -/
theorem c6_joinList_amended :
    (∀ a : String, joinList [a] = a) ∧
    (∀ a b : String, joinList [a, b] = a ++ " & " ++ b) ∧
    (∀ (a b z : String) (mid : List String),
      joinList (a :: b :: (mid ++ [z])) = joinSep ", " (a :: b :: mid) ++ ", & " ++ z) := by
  refine ⟨fun a => rfl, fun a b => by simp [joinList, joinSep], fun a b z mid => ?_⟩
  cases mid with
  | nil =>
    simpa using joinList_catchall z [a, b] (by simp) rfl
  | cons m mid' =>
    have h := joinList_catchall z (a :: b :: m :: mid') (by simp) rfl
    simpa using h

/-- C8 (counterexample): in a single modelled build whose two `today()` calls
observe clock readings on either side of a UTC midnight, the two synthesized
entries carry different date fields — the date is read per document, not once
per build. -/
theorem c8_date_counterexample :
    bibGet (phase1 (fun _ => "Robin")
        (fun i => if i = 0 then "2024-01-01T23:59:59.000Z" else "2024-01-02T00:00:00.000Z")
        0 [] [⟨"a", "TA", ["robin"], ""⟩, ⟨"b", "TB", ["robin"], ""⟩]) "a" =
      some (htmlifyReference "Robin" "TA" "2024-01-01" "https://dasl.ing/a.html") ∧
    bibGet (phase1 (fun _ => "Robin")
        (fun i => if i = 0 then "2024-01-01T23:59:59.000Z" else "2024-01-02T00:00:00.000Z")
        0 [] [⟨"a", "TA", ["robin"], ""⟩, ⟨"b", "TB", ["robin"], ""⟩]) "b" =
      some (htmlifyReference "Robin" "TB" "2024-01-02" "https://dasl.ing/b.html") ∧
    today "2024-01-01T23:59:59.000Z" ≠ today "2024-01-02T00:00:00.000Z" :=
  ⟨by decide, by decide, by decide⟩

/-- C8 (amended): the date field of every synthesized bibliography entry is the
`YYYY-MM-DD` date part of the clock reading observed by that document's own
`today()` call — a per-document timestamp; all documents of a run share the
same date exactly when every reading of the run has the same date part. -/
theorem c8_date_amended :
    (∀ (date tail : List Char) (c : Char), 'T' ∉ date → c ≠ '\n' → '\n' ∉ tail →
      today (String.mk (date ++ 'T' :: c :: tail)) = String.mk date) ∧
    (∀ (people : String → String) (clock : Nat → String) (specs : List Spec)
       (bib : Bib) (D : String),
      (specs.map Spec.shortname).Nodup →
      (∀ i, i < specs.length → today (clock i) = D) →
      ∀ (j : Nat) (sp : Spec), specs[j]? = some sp →
        bibGet (phase1 people clock 0 bib specs) sp.shortname =
          some (htmlifyReference (joinList (sp.authors.map people)) sp.title D
            ("https://dasl.ing/" ++ sp.shortname ++ ".html"))) := by
  constructor
  · intro date tail c hT hc htail
    unfold today
    congr 1
    exact stripTimeSuffix_append tail c hc htail date hT
  · intro people clock specs bib D hnd hD j sp hj
    have hlt : j < specs.length := by
      by_contra hge
      rw [List.getElem?_eq_none (by omega)] at hj
      simp at hj
    rw [bibGet_phase1 people clock specs bib j sp hnd hj]
    unfold selfEntry
    rw [hD j hlt]

/-- Witness for C8 (amended) at a concrete run: one document, a clock reading
of 2024-03-05, same-day for every call. -/
theorem c8_date_amended_witness :
    today (String.mk ("2024-03-05".data ++ 'T' :: '1' :: "0:00:00.000Z".data)) =
      String.mk "2024-03-05".data ∧
    bibGet (phase1 (fun _ => "Robin") (fun _ => "2024-03-05T10:00:00.000Z") 0 []
        [⟨"a", "TA", ["robin"], ""⟩]) "a" =
      some (htmlifyReference "Robin" "TA" "2024-03-05" "https://dasl.ing/a.html") :=
  ⟨c8_date_amended.1 "2024-03-05".data "0:00:00.000Z".data '1'
      (by decide) (by decide) (by decide),
    c8_date_amended.2 (fun _ => "Robin") (fun _ => "2024-03-05T10:00:00.000Z")
      [⟨"a", "TA", ["robin"], ""⟩] [] "2024-03-05" (by decide)
      (fun _ _ => (by decide : today "2024-03-05T10:00:00.000Z" = "2024-03-05"))
      0 ⟨"a", "TA", ["robin"], ""⟩ (by decide)⟩

/-- C7: every field of a synthesized bibliography entry is HTML-escaped exactly
once before composition — `esc` coincides with the single-pass per-character
escape (`&` to `&amp;`, `<` to `&lt;`, `"` to `&quot;`, all else unchanged) and
the composed fragment applies that single pass to each raw field, so
re-synthesizing from the same source fields yields the identical, singly
escaped fragment. -/
theorem c7_escaped_exactly_once :
    (∀ s : String, esc s = escOnce s) ∧
    (∀ author title date url : String,
      htmlifyReference author title date url =
        escOnce author ++ ". <a href=\"" ++ escOnce url ++ "\"><cite>" ++ escOnce title ++
          "</cite></a>. " ++ escOnce date ++ ". URL:&nbsp;<a href=\"" ++ escOnce url ++ "\">" ++
          escOnce url ++ "</a>") := by
  refine ⟨esc_eq_escOnce, fun a t d u => ?_⟩
  simp [htmlifyReference, esc_eq_escOnce]


theorem slugify_explicit (ids : List String) (i s pfx : String) (u : Bool) :
    slugify ids ⟨some i, s⟩ pfx u = i := rfl

theorem slugify_none_fresh (ids : List String) (t pfx : String)
    (h : idify pfx (slugTxt t) none ∉ ids) :
    slugify ids ⟨none, t⟩ pfx true = idify pfx (slugTxt t) none := by
  simp [slugify, h]

theorem slugify_none_clash (ids : List String) (t pfx : String)
    (h : idify pfx (slugTxt t) none ∈ ids) (id' : String)
    (hf : findSuf ids pfx (slugTxt t) (ids.length + 1) 1 = some id') :
    slugify ids ⟨none, t⟩ pfx true = id' := by
  simp [slugify, h, hf]

theorem dfnPass_family (t : String) (S : List String)
    (hbare : idify "dfn" (slugTxt t) none ∉ S)
    (hfresh : ∀ k, 1 ≤ k → idify "dfn" (slugTxt t) (some k) ∉ S) :
    ∀ (sites : List Elem) (j : Nat) (ids : List String),
      (∀ e ∈ sites, e = ⟨none, t⟩) →
      (∀ x, x ∈ ids ↔ x ∈ ((List.range j).map (fun i =>
          if i = 0 then idify "dfn" (slugTxt t) none
          else idify "dfn" (slugTxt t) (some i))) ++ S) →
      ids.length = j + S.length →
      (dfnPass ids sites).1.map Prod.snd =
        (List.range' j sites.length).map (fun i =>
          if i = 0 then idify "dfn" (slugTxt t) none
          else idify "dfn" (slugTxt t) (some i)) := by
  intro sites
  induction sites with
  | nil => intro j ids _ _ _; rfl
  | cons e rest ih =>
    intro j ids hsites hmem hlen
    have he : e = ⟨none, t⟩ := hsites e (List.mem_cons_self e rest)
    subst he
    have hsites' : ∀ e ∈ rest, e = (⟨none, t⟩ : Elem) :=
      fun e he => hsites e (List.mem_cons_of_mem _ he)
    by_cases hj : j = 0
    · subst hj
      have hnotin : idify "dfn" (slugTxt t) none ∉ ids := by
        intro hcon
        rcases List.mem_append.mp ((hmem _).mp hcon) with hL | hR
        · simp at hL
        · exact hbare hR
      have hid0 := slugify_none_fresh ids t "dfn" hnotin
      have hmem' : ∀ x, x ∈ idify "dfn" (slugTxt t) none :: ids ↔
          x ∈ ((List.range 1).map (fun i =>
            if i = 0 then idify "dfn" (slugTxt t) none
            else idify "dfn" (slugTxt t) (some i))) ++ S := by
        intro x
        rw [List.mem_cons, hmem x]
        simp [List.range_succ, eq_comm]
      have hlen' : (idify "dfn" (slugTxt t) none :: ids).length = 1 + S.length := by
        simp only [List.length_cons, hlen]
        omega
      have htail := ih 1 (idify "dfn" (slugTxt t) none :: ids) hsites' hmem' hlen'
      simp only [dfnPass, List.map_cons, List.length_cons]
      rw [List.range'_succ, List.map_cons, hid0, htail]
      simp
    · obtain ⟨j', rfl⟩ : ∃ j', j = j' + 1 := ⟨j - 1, by omega⟩
      have hin0 : idify "dfn" (slugTxt t) none ∈ ids := by
        rw [hmem]
        apply List.mem_append_left
        exact List.mem_map.mpr ⟨0, List.mem_range.mpr (by omega), by simp⟩
      have hnotmem : idify "dfn" (slugTxt t) (some (j' + 1)) ∉ ids := by
        rw [hmem]
        intro hcon
        rcases List.mem_append.mp hcon with hL | hR
        · rcases List.mem_map.mp hL with ⟨i, hi, hfi⟩
          by_cases hi0 : i = 0
          · rw [if_pos hi0] at hfi
            exact idify_none_ne_some "dfn" (slugTxt t) (by decide) (j' + 1) hfi
          · rw [if_neg hi0] at hfi
            have := idify_some_inj _ _ _ _ hfi
            have hilt := List.mem_range.mp hi
            omega
        · exact hfresh (j' + 1) (by omega) hR
      have hall : ∀ i, 1 ≤ i → i < j' + 1 → idify "dfn" (slugTxt t) (some i) ∈ ids := by
        intro i h1 h2
        rw [hmem]
        apply List.mem_append_left
        exact List.mem_map.mpr ⟨i, List.mem_range.mpr (by omega), by rw [if_neg (by omega)]⟩
      have hfs := findSuf_spec ids "dfn" (slugTxt t) (ids.length + 1) 1 (j' + 1)
        (by omega) (by omega) hall hnotmem
      have hid := slugify_none_clash ids t "dfn" hin0 _ hfs
      have hmem' : ∀ x, x ∈ idify "dfn" (slugTxt t) (some (j' + 1)) :: ids ↔
          x ∈ ((List.range (j' + 2)).map (fun i =>
            if i = 0 then idify "dfn" (slugTxt t) none
            else idify "dfn" (slugTxt t) (some i))) ++ S := by
        intro x
        rw [List.mem_cons, hmem x]
        rw [show List.range (j' + 2) = List.range (j' + 1) ++ [j' + 1] from
          List.range_succ (j' + 1)]
        rw [List.map_append, List.map_cons, List.map_nil]
        rw [if_neg hj]
        simp only [List.mem_append, List.mem_singleton]
        constructor
        · rintro (h | h | h)
          · exact Or.inl (Or.inr h)
          · exact Or.inl (Or.inl h)
          · exact Or.inr h
        · rintro ((h | h) | h)
          · exact Or.inr (Or.inl h)
          · exact Or.inl h
          · exact Or.inr (Or.inr h)
      have hlen' : (idify "dfn" (slugTxt t) (some (j' + 1)) :: ids).length
          = (j' + 2) + S.length := by
        simp only [List.length_cons, hlen]
        omega
      have htail := ih (j' + 2) (idify "dfn" (slugTxt t) (some (j' + 1)) :: ids)
        hsites' hmem' hlen'
      simp only [dfnPass, List.map_cons, List.length_cons]
      rw [List.range'_succ, List.map_cons, hid, htail]
      rw [if_neg hj]

theorem dfnPass_explicit (els : List Elem) :
    ∀ ids : List String, ∀ p ∈ (dfnPass ids els).1,
      ∀ i, p.1.explicitId = some i → p.2 = i := by
  induction els with
  | nil => intro ids p hp; exact absurd hp (List.not_mem_nil _)
  | cons e rest ih =>
    intro ids p hp i hpi
    simp only [dfnPass] at hp
    rcases List.mem_cons.mp hp with h | h
    · subst h
      obtain ⟨eid, txt⟩ := e
      cases eid with
      | none => exact Option.noConfusion hpi
      | some j =>
        have hj := Option.some.inj hpi
        rw [slugify_explicit]
        exact hj
    · exact ih (slugify ids e "dfn" true :: ids) p h i hpi

/-- C2: for `N` definition sites without explicit ids that share the same text
(hence the same raw slug), starting from a document id set `S` containing no id
of the slug family, the `dfn` pass assigns in first-seen order the bare slug to
the first site and the slug with the incrementing numeric suffix `i` (starting
at 1) to the `i`-th later site, and the `N` assigned identifiers are pairwise
distinct. -/
theorem c2_suffix_uniqueness (t : String) (S : List String) (sites : List Elem)
    (hsites : ∀ e ∈ sites, e = (⟨none, t⟩ : Elem))
    (hbare : idify "dfn" (slugTxt t) none ∉ S)
    (hfresh : ∀ k, 1 ≤ k → idify "dfn" (slugTxt t) (some k) ∉ S) :
    (dfnPass S sites).1.map Prod.snd =
      (List.range sites.length).map (fun i =>
        if i = 0 then idify "dfn" (slugTxt t) none
        else idify "dfn" (slugTxt t) (some i)) ∧
    ((dfnPass S sites).1.map Prod.snd).Nodup := by
  have hmem : ∀ x, x ∈ S ↔ x ∈ ((List.range 0).map (fun i =>
      if i = 0 then idify "dfn" (slugTxt t) none
      else idify "dfn" (slugTxt t) (some i))) ++ S := by
    intro x
    simp
  have h1 := dfnPass_family t S hbare hfresh sites 0 S hsites hmem (by omega)
  have hinj : Function.Injective (fun i =>
      if i = 0 then idify "dfn" (slugTxt t) none
      else idify "dfn" (slugTxt t) (some i)) := by
    intro a b hab
    dsimp only at hab
    by_cases ha : a = 0 <;> by_cases hb : b = 0
    · exact ha.trans hb.symm
    · rw [if_pos ha, if_neg hb] at hab
      exact absurd hab (idify_none_ne_some "dfn" (slugTxt t) (by decide) b)
    · rw [if_neg ha, if_pos hb] at hab
      exact absurd hab.symm (idify_none_ne_some "dfn" (slugTxt t) (by decide) a)
    · rw [if_neg ha, if_neg hb] at hab
      exact idify_some_inj _ _ _ _ hab
  constructor
  · rw [List.range_eq_range']
    exact h1
  · rw [h1, ← List.range_eq_range']
    exact List.Nodup.map hinj (List.nodup_range _)

theorem c2_suffix_uniqueness_witness :
    (dfnPass [] [⟨none, "Node"⟩, ⟨none, "Node"⟩, ⟨none, "Node"⟩]).1.map Prod.snd =
      ["dfn-node", "dfn-node-1", "dfn-node-2"] ∧
    ((dfnPass [] [⟨none, "Node"⟩, ⟨none, "Node"⟩,
      ⟨none, "Node"⟩]).1.map Prod.snd).Nodup := by
  have h := c2_suffix_uniqueness "Node" []
    [⟨none, "Node"⟩, ⟨none, "Node"⟩, ⟨none, "Node"⟩]
    (by decide) (List.not_mem_nil _) (fun k _ => List.not_mem_nil _)
  exact ⟨h.1.trans (by decide), h.2⟩

/-- C9: an element that carries an explicit id attribute keeps it verbatim:
`slugify` returns the explicit id unchanged for every prefix and uniqueness
flag, and every assignment the `dfn` pass makes to an element with an explicit
id equals that explicit id, so the attribute is rewritten to its previous
value. -/
theorem c9_explicit_ids_verbatim (ids : List String) (els : List Elem) :
    (∀ (e : Elem) (i pfx : String) (u : Bool),
        e.explicitId = some i → slugify ids e pfx u = i) ∧
    (∀ p ∈ (dfnPass ids els).1, ∀ i, p.1.explicitId = some i → p.2 = i) := by
  constructor
  · intro e i pfx u he
    obtain ⟨eid, txt⟩ := e
    cases eid with
    | none => exact Option.noConfusion he
    | some j =>
      have hj := Option.some.inj he
      rw [slugify_explicit]
      exact hj
  · intro p hp i hpi
    exact dfnPass_explicit els ids p hp i hpi

theorem c9_explicit_ids_verbatim_witness :
    slugify ["x"] ⟨some "keep-me", "Node"⟩ "dfn" true = "keep-me" :=
  (c9_explicit_ids_verbatim ["x"] []).1 ⟨some "keep-me", "Node"⟩ "keep-me" "dfn"
    true rfl

/-- C10: the unique-slug search loop of `slugify` terminates for every finite
document id set: the suffix search started at 1, which increments the numeric
suffix on every iteration, returns within `ids.length + 1` iterations an
identifier that is not among the finitely many identifiers present in the
document. -/
theorem c10_slug_search_terminates (ids : List String) (pfx txt : String) :
    ∃ id, findSuf ids pfx txt (ids.length + 1) 1 = some id ∧ id ∉ ids :=
  findSuf_total ids pfx txt

/-! Lemmas for claim C3: canonical `tokens` form of the slug pipelines. -/

theorem jsWs_toNat (c : Char) (h : jsWs c = true) :
    c.toNat = 32 ∨ (9 ≤ c.toNat ∧ c.toNat ≤ 13) ∨ c.toNat = 160 ∨ c.toNat = 5760 ∨
    (8192 ≤ c.toNat ∧ c.toNat ≤ 8202) ∨ c.toNat = 8232 ∨ c.toNat = 8233 ∨
    c.toNat = 8239 ∨ c.toNat = 8287 ∨ c.toNat = 12288 ∨ c.toNat = 65279 := by
  unfold jsWs at h
  simp only [Bool.or_eq_true, Bool.and_eq_true, decide_eq_true_eq] at h
  rcases h with ((((((((((h | h) | h) | h) | h) | h) | h) | h) | h) | h) | h)
  · exact Or.inl (congrArg UInt32.toNat h)
  · exact Or.inr (Or.inl ⟨h.1, h.2⟩)
  · exact Or.inr (Or.inr (Or.inl (congrArg UInt32.toNat h)))
  · exact Or.inr (Or.inr (Or.inr (Or.inl (congrArg UInt32.toNat h))))
  · exact Or.inr (Or.inr (Or.inr (Or.inr (Or.inl ⟨h.1, h.2⟩))))
  · exact Or.inr (Or.inr (Or.inr (Or.inr (Or.inr (Or.inl (congrArg UInt32.toNat h))))))
  · exact Or.inr (Or.inr (Or.inr (Or.inr (Or.inr (Or.inr (Or.inl (congrArg UInt32.toNat h)))))))
  · exact Or.inr (Or.inr (Or.inr (Or.inr (Or.inr (Or.inr (Or.inr (Or.inl (congrArg UInt32.toNat h))))))))
  · exact Or.inr (Or.inr (Or.inr (Or.inr (Or.inr (Or.inr (Or.inr (Or.inr (Or.inl (congrArg UInt32.toNat h)))))))))
  · exact Or.inr (Or.inr (Or.inr (Or.inr (Or.inr (Or.inr (Or.inr (Or.inr (Or.inr (Or.inl (congrArg UInt32.toNat h))))))))))
  · exact Or.inr (Or.inr (Or.inr (Or.inr (Or.inr (Or.inr (Or.inr (Or.inr (Or.inr (Or.inr (congrArg UInt32.toNat h))))))))))

theorem toLower_of_jsWs (c : Char) (h : jsWs c = true) : Char.toLower c = c := by
  have hn := jsWs_toNat c h
  unfold Char.toLower
  rw [if_neg ?_]
  intro hcon
  rcases hcon with ⟨h1, h2⟩
  rcases hn with h | h | h | h | h | h | h | h | h | h | h <;> omega

theorem wordChar_of_jsWs (c : Char) (h : jsWs c = true) : wordChar c = false := by
  have hn := jsWs_toNat c h
  rw [Bool.eq_false_iff]
  intro hcon
  unfold wordChar Char.isAlphanum Char.isAlpha Char.isDigit Char.isUpper Char.isLower at hcon
  simp only [Bool.or_eq_true, Bool.and_eq_true, decide_eq_true_eq, ge_iff_le] at hcon
  rcases hcon with (((⟨h1, h2⟩ | ⟨h1, h2⟩) | ⟨h1, h2⟩) | heq)
  · have h1' : (65 : Nat) ≤ c.toNat := h1
    have h2' : c.toNat ≤ (90 : Nat) := h2
    rcases hn with h | h | h | h | h | h | h | h | h | h | h <;> omega
  · have h1' : (97 : Nat) ≤ c.toNat := h1
    have h2' : c.toNat ≤ (122 : Nat) := h2
    rcases hn with h | h | h | h | h | h | h | h | h | h | h <;> omega
  · have h1' : (48 : Nat) ≤ c.toNat := h1
    have h2' : c.toNat ≤ (57 : Nat) := h2
    rcases hn with h | h | h | h | h | h | h | h | h | h | h <;> omega
  · have h1' : c.toNat = 95 := congrArg Char.toNat heq
    rcases hn with h | h | h | h | h | h | h | h | h | h | h <;> omega

theorem slugChar_of_jsWs (c : Char) (h : jsWs c = true) : slugChar c = '-' := by
  unfold slugChar
  rw [toLower_of_jsWs c h, wordChar_of_jsWs c h]
  simp

theorem map_hyph_toLower (l : List Char) :
    (l.map Char.toLower).map (fun c => if wordChar c then c else '-') = l.map slugChar := by
  rw [List.map_map]
  rfl

theorem slugChar_wsToSp (c : Char) : slugChar (wsToSp c) = slugChar c := by
  unfold wsToSp
  by_cases h : jsWs c
  · rw [if_pos h, slugChar_of_jsWs c h]
    decide
  · rw [if_neg h]

theorem map_wsToSp_slugChar (l : List Char) :
    (l.map wsToSp).map slugChar = l.map slugChar := by
  induction l with
  | nil => rfl
  | cons c t ih => simp only [List.map_cons, slugChar_wsToSp, ih]

theorem tokens_hyphen_cons (l : List Char) : tokens ('-' :: l) = tokens l := by
  rw [tokens]

theorem tokens_word_cons (c : Char) (l : List Char) (h : c ≠ '-') :
    tokens (c :: l) = (c :: l.takeWhile (· ≠ '-')) :: tokens (l.dropWhile (· ≠ '-')) := by
  rw [tokens]
  exact fun hc => h hc

theorem dropWhile_head_not {p : Char → Bool} : ∀ (l : List Char) (a : Char) (t : List Char),
    l.dropWhile p = a :: t → p a = false := by
  intro l
  induction l with
  | nil => intro a t h; exact absurd h (by simp)
  | cons b l' ih =>
    intro a t h
    by_cases hb : p b
    · rw [List.dropWhile_cons_of_pos hb] at h
      exact ih a t h
    · rw [List.dropWhile_cons_of_neg hb] at h
      cases h
      exact Bool.eq_false_iff.mpr hb

theorem takeWhile_append_all {p : Char → Bool} (cs h : List Char)
    (hall : ∀ c ∈ cs, p c = true) :
    ((cs ++ h).takeWhile p = cs ++ h.takeWhile p) ∧
    ((cs ++ h).dropWhile p = h.dropWhile p) := by
  induction cs with
  | nil => exact ⟨rfl, rfl⟩
  | cons a t ih =>
    have ha := hall a (List.mem_cons_self _ _)
    obtain ⟨h1, h2⟩ := ih (fun c hc => hall c (List.mem_cons_of_mem _ hc))
    constructor
    · rw [List.cons_append, List.takeWhile_cons_of_pos ha, h1, List.cons_append]
    · rw [List.cons_append, List.dropWhile_cons_of_pos ha, h2]

theorem takeWhile_append_of_exists {p : Char → Bool} (cs h : List Char)
    (hex : ∃ c ∈ cs, ¬ p c = true) :
    ((cs ++ h).takeWhile p = cs.takeWhile p) ∧
    ((cs ++ h).dropWhile p = cs.dropWhile p ++ h) := by
  induction cs with
  | nil =>
    obtain ⟨c, hc, _⟩ := hex
    exact absurd hc (List.not_mem_nil _)
  | cons a t ih =>
    by_cases hp : p a
    · have hex' : ∃ c ∈ t, ¬ p c = true := by
        obtain ⟨c, hc, hpc⟩ := hex
        rcases List.mem_cons.mp hc with rfl | hct
        · exact absurd hp hpc
        · exact ⟨c, hct, hpc⟩
      obtain ⟨h1, h2⟩ := ih hex'
      constructor
      · rw [List.cons_append, List.takeWhile_cons_of_pos hp, List.takeWhile_cons_of_pos hp, h1]
      · rw [List.cons_append, List.dropWhile_cons_of_pos hp, List.dropWhile_cons_of_pos hp, h2]
    · constructor
      · rw [List.cons_append, List.takeWhile_cons_of_neg hp, List.takeWhile_cons_of_neg hp]
      · rw [List.cons_append, List.dropWhile_cons_of_neg hp, List.dropWhile_cons_of_neg hp,
          List.cons_append]

theorem tokens_nil : tokens [] = [] := by
  rw [tokens]

theorem tokens_all_hyphens (l : List Char) (h : ∀ c ∈ l, c = '-') : tokens l = [] := by
  induction l with
  | nil => exact tokens_nil
  | cons c t ih =>
    have hc := h c (List.mem_cons_self _ _)
    subst hc
    rw [tokens_hyphen_cons]
    exact ih (fun c hc => h c (List.mem_cons_of_mem _ hc))

theorem tokens_eq_nil_imp (l : List Char) (h : tokens l = []) : ∀ c ∈ l, c = '-' := by
  induction l with
  | nil => intro c hc; exact absurd hc (List.not_mem_nil _)
  | cons a t ih =>
    by_cases ha : a = '-'
    · subst ha
      rw [tokens_hyphen_cons] at h
      intro c hc
      rcases List.mem_cons.mp hc with rfl | hct
      · rfl
      · exact ih h c hct
    · rw [tokens_word_cons a t ha] at h
      exact absurd h (List.cons_ne_nil _ _)

theorem tokens_dropWhile_hyphens (l : List Char) :
    tokens (l.dropWhile (· = '-')) = tokens l := by
  induction l with
  | nil => rfl
  | cons a t ih =>
    by_cases ha : a = '-'
    · subst ha
      rw [List.dropWhile_cons_of_pos (by simp), tokens_hyphen_cons]
      exact ih
    · rw [List.dropWhile_cons_of_neg (by simp [ha])]

theorem takeWhile_eq_self_of_all {p : Char → Bool} {l : List Char}
    (h : ∀ c ∈ l, p c = true) : l.takeWhile p = l :=
  List.takeWhile_eq_self_iff.mpr h

theorem dropWhile_eq_nil_of_all {p : Char → Bool} {l : List Char}
    (h : ∀ c ∈ l, p c = true) : l.dropWhile p = [] :=
  List.dropWhile_eq_nil_iff.mpr h

theorem tokens_append_hyphens (h : List Char) (hh : ∀ c ∈ h, c = '-') :
    ∀ x, tokens (x ++ h) = tokens x := by
  intro x
  induction x using tokens.induct with
  | case1 => rw [List.nil_append, tokens_nil]; exact tokens_all_hyphens h hh
  | case2 cs ih => rw [List.cons_append, tokens_hyphen_cons, tokens_hyphen_cons, ih]
  | case3 c cs hc ih =>
    have hcne : c ≠ '-' := fun hq => hc hq
    rw [List.cons_append, tokens_word_cons c (cs ++ h) hcne, tokens_word_cons c cs hcne]
    by_cases hall : ∀ c' ∈ cs, c' ≠ '-'
    · have hall' : ∀ c' ∈ cs, (fun x => decide (x ≠ '-')) c' = true := by
        intro c' hc'
        simp [hall c' hc']
      have htk : h.takeWhile (· ≠ '-') = [] := by
        cases h with
        | nil => rfl
        | cons c0 t0 =>
          have h0 : c0 = '-' := hh c0 (List.mem_cons_self _ _)
          subst h0
          rw [List.takeWhile_cons_of_neg (by simp)]
      have hdk : h.dropWhile (· ≠ '-') = h := by
        cases h with
        | nil => rfl
        | cons c0 t0 =>
          have h0 : c0 = '-' := hh c0 (List.mem_cons_self _ _)
          subst h0
          rw [List.dropWhile_cons_of_neg (by simp)]
      obtain ⟨h1, h2⟩ := takeWhile_append_all cs h hall'
      rw [h1, h2, htk, hdk, List.append_nil]
      rw [takeWhile_eq_self_of_all hall', dropWhile_eq_nil_of_all hall']
      rw [tokens_all_hyphens h hh, tokens_nil]
    · push_neg at hall
      obtain ⟨c', hc', hc'eq⟩ := hall
      have hex : ∃ a ∈ cs, ¬ ((fun x => decide (x ≠ '-')) a = true) := by
        refine ⟨c', hc', ?_⟩
        simp [hc'eq]
      obtain ⟨h1, h2⟩ := takeWhile_append_of_exists cs h hex
      rw [h1, h2, ih]

theorem collapseHyphens_cons₂_pos (cs : List Char) :
    collapseHyphens ('-' :: '-' :: cs) = collapseHyphens ('-' :: cs) := by
  simp [collapseHyphens]

theorem collapseHyphens_cons₂_neg (c c2 : Char) (cs : List Char)
    (h : ¬(c = '-' ∧ c2 = '-')) :
    collapseHyphens (c :: c2 :: cs) = c :: collapseHyphens (c2 :: cs) := by
  rw [collapseHyphens, if_neg h]

theorem collapseHyphens_head : ∀ (cs : List Char) (c : Char),
    ∃ t, collapseHyphens (c :: cs) = c :: t := by
  intro cs
  induction cs with
  | nil => intro c; exact ⟨[], rfl⟩
  | cons c2 cs' ih =>
    intro c
    by_cases h : c = '-' ∧ c2 = '-'
    · obtain ⟨hc, hc2⟩ := h
      subst hc
      subst hc2
      obtain ⟨t, ht⟩ := ih '-'
      exact ⟨t, by rw [collapseHyphens_cons₂_pos, ht]⟩
    · exact ⟨collapseHyphens (c2 :: cs'), collapseHyphens_cons₂_neg c c2 cs' h⟩

theorem collapseHyphens_skip : ∀ cs : List Char,
    collapseHyphens ('-' :: cs) = collapseHyphens ('-' :: cs.dropWhile (· = '-')) := by
  intro cs
  induction cs with
  | nil => rfl
  | cons c2 cs' ih =>
    by_cases h2 : c2 = '-'
    · subst h2
      rw [collapseHyphens_cons₂_pos, ih, List.dropWhile_cons_of_pos (by simp)]
    · rw [List.dropWhile_cons_of_neg (by simp [h2])]

theorem collapseHyphens_hyphen_word (z : List Char) (hz : z.head? ≠ some '-') :
    collapseHyphens ('-' :: z) = '-' :: collapseHyphens z := by
  cases z with
  | nil => rfl
  | cons a t =>
    have ha : a ≠ '-' := fun h => hz (by rw [h]; rfl)
    exact collapseHyphens_cons₂_neg '-' a t (fun hq => ha hq.2)

theorem collapseHyphens_word_append : ∀ (w z : List Char), (∀ c ∈ w, c ≠ '-') →
    collapseHyphens (w ++ z) = w ++ collapseHyphens z := by
  intro w
  induction w with
  | nil => intro z _; rfl
  | cons a w' ih =>
    intro z hw
    have ha : a ≠ '-' := hw a (List.mem_cons_self _ _)
    cases w' with
    | nil =>
      cases z with
      | nil => rfl
      | cons b z' =>
        rw [List.cons_append, List.nil_append,
          collapseHyphens_cons₂_neg a b z' (fun hq => ha hq.1)]
        rfl
    | cons a2 w'' =>
      rw [List.cons_append, List.cons_append,
        collapseHyphens_cons₂_neg a a2 (w'' ++ z) (fun hq => ha hq.1)]
      have ih' := ih z (fun c hc => hw c (List.mem_cons_of_mem _ hc))
      rw [List.cons_append] at ih'
      rw [ih']
      simp

theorem collapseHyphens_chain' (x : List Char) :
    List.Chain' (fun a b => ¬(a = '-' ∧ b = '-')) (collapseHyphens x) := by
  induction x using collapseHyphens.induct with
  | case1 => exact List.chain'_nil
  | case2 c => exact List.chain'_singleton c
  | case3 c c2 cs h ih =>
    obtain ⟨hc, hc2⟩ := h
    subst hc
    subst hc2
    rw [collapseHyphens_cons₂_pos]
    exact ih
  | case4 c c2 cs h ih =>
    obtain ⟨t, ht⟩ := collapseHyphens_head cs c2
    rw [collapseHyphens_cons₂_neg c c2 cs h, ht]
    exact List.chain'_cons.mpr ⟨h, ht ▸ ih⟩

theorem mem_collapseHyphens (x : List Char) (c : Char) (hc : c ≠ '-') :
    c ∈ collapseHyphens x ↔ c ∈ x := by
  induction x using collapseHyphens.induct with
  | case1 => exact Iff.rfl
  | case2 c' => exact Iff.rfl
  | case3 c1 c2 cs h ih =>
    obtain ⟨hc1, hc2⟩ := h
    subst hc1
    subst hc2
    rw [collapseHyphens_cons₂_pos]
    rw [ih]
    simp [List.mem_cons, hc]
  | case4 c1 c2 cs h ih =>
    rw [collapseHyphens_cons₂_neg c1 c2 cs h, List.mem_cons, List.mem_cons, ih]

theorem chain'_dropWhile {R : Char → Char → Prop} {p : Char → Bool} :
    ∀ (l : List Char), List.Chain' R l → List.Chain' R (l.dropWhile p) := by
  intro l
  induction l with
  | nil => intro h; exact h
  | cons a t ih =>
    intro h
    by_cases hp : p a
    · rw [List.dropWhile_cons_of_pos hp]
      exact ih h.tail
    · rw [List.dropWhile_cons_of_neg hp]
      exact h

theorem dropOneLeadingHyphen_eq (y : List Char)
    (h : List.Chain' (fun a b => ¬(a = '-' ∧ b = '-')) y) :
    dropOneLeadingHyphen y = y.dropWhile (· = '-') := by
  cases y with
  | nil => rfl
  | cons c t =>
    by_cases hc : c = '-'
    · subst hc
      rw [List.dropWhile_cons_of_pos (by simp)]
      show t = t.dropWhile (· = '-')
      cases t with
      | nil => rfl
      | cons c2 t' =>
        have h2 : ¬('-' = '-' ∧ c2 = '-') := (List.chain'_cons.mp h).1
        have hc2 : c2 ≠ '-' := fun hq => h2 ⟨rfl, hq⟩
        rw [List.dropWhile_cons_of_neg (by simp [hc2])]
    · rw [List.dropWhile_cons_of_neg (by simp [hc])]
      rw [dropOneLeadingHyphen.eq_def]
      split
      · rename_i cs heq
        injection heq with h1 h2
        exact absurd h1 hc
      · rfl

theorem dropOneTrailingHyphen_eq (y : List Char)
    (h : List.Chain' (fun a b => ¬(a = '-' ∧ b = '-')) y) :
    dropOneTrailingHyphen y = (y.reverse.dropWhile (· = '-')).reverse := by
  have hrev : List.Chain' (fun a b => ¬(a = '-' ∧ b = '-')) y.reverse := by
    rw [List.chain'_reverse]
    exact h.imp (fun a b hab => fun hq => hab ⟨hq.2, hq.1⟩)
  cases hy : y.reverse with
  | nil =>
    have hnil : y = [] := by
      have h2 := congrArg List.reverse hy
      simpa using h2
    subst hnil
    rfl
  | cons c t =>
    have hyy : y = t.reverse ++ [c] := by
      have h2 := congrArg List.reverse hy
      simpa using h2
    rw [hy] at hrev
    by_cases hc : c = '-'
    · subst hc
      have hlast : y.getLast? = some '-' := by
        rw [hyy]
        exact List.getLast?_concat _
      unfold dropOneTrailingHyphen
      rw [if_pos hlast]
      rw [List.dropWhile_cons_of_pos (by simp)]
      have hdt : t.dropWhile (· = '-') = t := by
        cases t with
        | nil => rfl
        | cons c2 t' =>
          have h2 := (List.chain'_cons.mp hrev).1
          have hc2 : c2 ≠ '-' := fun hq => h2 ⟨rfl, hq⟩
          rw [List.dropWhile_cons_of_neg (by simp [hc2])]
      rw [hdt, hyy]
      show (t.reverse ++ ['-']).dropLast = t.reverse
      exact List.dropLast_concat
    · have hlast : y.getLast? = some c := by
        rw [hyy]
        exact List.getLast?_concat _
      unfold dropOneTrailingHyphen
      rw [if_neg (by rw [hlast]; exact fun hq => hc (Option.some.inj hq))]
      rw [List.dropWhile_cons_of_neg (by simp [hc])]
      rw [← hy, List.reverse_reverse]

theorem dropWhile_eq_self_of_all_neg {p : Char → Bool} {l : List Char}
    (h : ∀ a ∈ l, p a = false) : l.dropWhile p = l := by
  cases l with
  | nil => rfl
  | cons a t =>
    exact List.dropWhile_cons_of_neg (by simp [h a (List.mem_cons_self _ _)])

theorem revTrim_append_all (v u : List Char) (hu : ∀ a ∈ u, a = '-')
    (hv : ∀ a ∈ v, a ≠ '-') :
    ((v ++ u).reverse.dropWhile (· = '-')).reverse = v := by
  rw [List.reverse_append]
  have h1 : (u.reverse ++ v.reverse).dropWhile (· = '-')
      = v.reverse.dropWhile (· = '-') := by
    refine (takeWhile_append_all _ _ ?_).2
    intro a ha
    simp [hu a (List.mem_reverse.mp ha)]
  rw [h1, dropWhile_eq_self_of_all_neg ?hv2, List.reverse_reverse]
  case hv2 =>
    intro a ha
    simp [hv a (List.mem_reverse.mp ha)]

theorem revTrim_append_exists (v u : List Char) (hex : ∃ q ∈ u, q ≠ '-') :
    ((v ++ u).reverse.dropWhile (· = '-')).reverse
      = v ++ (u.reverse.dropWhile (· = '-')).reverse := by
  rw [List.reverse_append]
  obtain ⟨q, hq, hqne⟩ := hex
  have hex' : ∃ a ∈ u.reverse, ¬ ((fun x => decide (x = '-')) a = true) :=
    ⟨q, List.mem_reverse.mpr hq, by simp [hqne]⟩
  rw [(takeWhile_append_of_exists _ _ hex').2]
  rw [List.reverse_append, List.reverse_reverse]

theorem trimAll_collapseHyphens :
    ∀ (n : Nat) (x : List Char), x.length ≤ n →
      (((collapseHyphens x).dropWhile (· = '-')).reverse.dropWhile (· = '-')).reverse
        = joinTokens (tokens x) := by
  intro n
  induction n with
  | zero =>
    intro x hx
    have hnil : x = [] := List.length_eq_zero.mp (Nat.le_zero.mp hx)
    subst hnil
    rw [tokens_nil]
    rfl
  | succ n ih =>
    intro x hx
    cases x with
    | nil => rw [tokens_nil]; rfl
    | cons c cs =>
      by_cases hc : c = '-'
      · subst hc
        rw [collapseHyphens_skip cs, tokens_hyphen_cons, ← tokens_dropWhile_hyphens cs]
        cases hw : cs.dropWhile (· = '-') with
        | nil =>
          rw [tokens_nil]
          rfl
        | cons a t =>
          have ha : a ≠ '-' := by
            have h0 := dropWhile_head_not cs a t hw
            simpa using h0
          rw [collapseHyphens_hyphen_word (a :: t) (by simp [ha])]
          obtain ⟨t2, ht2⟩ := collapseHyphens_head t a
          rw [List.dropWhile_cons_of_pos (by simp), ht2,
            List.dropWhile_cons_of_neg (by simp [ha]), ← ht2]
          have hfront : (collapseHyphens (a :: t)).dropWhile (· = '-')
              = collapseHyphens (a :: t) := by
            rw [ht2]
            exact List.dropWhile_cons_of_neg (by simp [ha])
          have hsuf : cs.dropWhile (· = '-') <:+ cs := List.dropWhile_suffix _
          have hlen : (a :: t).length ≤ n := by
            have hl := hsuf.length_le
            rw [hw] at hl
            simp only [List.length_cons] at hx
            omega
          have hih := ih (a :: t) hlen
          rw [hfront] at hih
          exact hih
      · rw [tokens_word_cons c cs hc]
        have hsplit : c :: cs = (c :: cs.takeWhile (· ≠ '-')) ++ cs.dropWhile (· ≠ '-') := by
          rw [List.cons_append, List.takeWhile_append_dropWhile]
        rw [hsplit]
        have hwfree : ∀ a ∈ c :: cs.takeWhile (· ≠ '-'), a ≠ '-' := by
          intro a ha
          rcases List.mem_cons.mp ha with rfl | hat
          · exact hc
          · have h0 := List.mem_takeWhile_imp hat
            simpa using h0
        rw [collapseHyphens_word_append _ _ hwfree]
        rw [List.cons_append, List.dropWhile_cons_of_neg (by simp [hc]), ← List.cons_append]
        by_cases hrest : tokens (cs.dropWhile (· ≠ '-')) = []
        · have hallrest : ∀ a ∈ cs.dropWhile (· ≠ '-'), a = '-' := tokens_eq_nil_imp _ hrest
          have hallCH : ∀ a ∈ collapseHyphens (cs.dropWhile (· ≠ '-')), a = '-' := by
            intro a ha
            by_contra hne
            exact hne (hallrest a ((mem_collapseHyphens _ a hne).mp ha))
          rw [revTrim_append_all _ _ hallCH hwfree, hrest]
          rfl
        · cases hr : cs.dropWhile (· ≠ '-') with
          | nil =>
            rw [hr, tokens_nil] at hrest
            exact absurd rfl hrest
          | cons b r' =>
            have hb : b = '-' := by
              have h0 := dropWhile_head_not cs b r' hr
              simpa using h0
            subst hb
            rw [hr] at hrest
            rw [collapseHyphens_skip r', tokens_hyphen_cons, ← tokens_dropWhile_hyphens r']
            rw [tokens_hyphen_cons, ← tokens_dropWhile_hyphens r'] at hrest
            cases ht : r'.dropWhile (· = '-') with
            | nil =>
              rw [ht, tokens_nil] at hrest
              exact absurd rfl hrest
            | cons a2 t2 =>
              rw [ht] at hrest
              have ha2 : a2 ≠ '-' := by
                have h0 := dropWhile_head_not r' a2 t2 ht
                simpa using h0
              rw [collapseHyphens_hyphen_word (a2 :: t2) (by simp [ha2])]
              obtain ⟨t3, ht3⟩ := collapseHyphens_head t2 a2
              have hex : ∃ q ∈ ('-' :: collapseHyphens (a2 :: t2)), q ≠ '-' :=
                ⟨a2, by rw [ht3]; exact List.mem_cons_of_mem _ (List.mem_cons_self _ _), ha2⟩
              rw [revTrim_append_exists _ _ hex]
              have hex2 : ∃ q ∈ collapseHyphens (a2 :: t2), q ≠ '-' :=
                ⟨a2, by rw [ht3]; exact List.mem_cons_self _ _, ha2⟩
              rw [show ('-' :: collapseHyphens (a2 :: t2))
                  = ['-'] ++ collapseHyphens (a2 :: t2) from rfl]
              rw [revTrim_append_exists _ _ hex2]
              have hfront2 : (collapseHyphens (a2 :: t2)).dropWhile (· = '-')
                  = collapseHyphens (a2 :: t2) := by
                rw [ht3]
                exact List.dropWhile_cons_of_neg (by simp [ha2])
              have hsuf1 : cs.dropWhile (· ≠ '-') <:+ cs := List.dropWhile_suffix _
              have hsuf2 : r'.dropWhile (· = '-') <:+ r' := List.dropWhile_suffix _
              have hlen2 : (a2 :: t2).length ≤ n := by
                have hl1 := hsuf1.length_le
                have hl2 := hsuf2.length_le
                rw [hr] at hl1
                rw [ht] at hl2
                simp only [List.length_cons] at hx hl1 hl2 ⊢
                omega
              have hih := ih (a2 :: t2) hlen2
              rw [hfront2] at hih
              rw [hih]
              have hjoin : joinTokens ((c :: cs.takeWhile (· ≠ '-')) :: tokens (a2 :: t2))
                  = (c :: cs.takeWhile (· ≠ '-')) ++ '-' :: joinTokens (tokens (a2 :: t2)) := by
                cases htok : tokens (a2 :: t2) with
                | nil => exact absurd htok hrest
                | cons u us => rfl
              rw [hjoin]
              simp

theorem codeTrim_collapseHyphens (x : List Char) :
    dropOneTrailingHyphen (dropOneLeadingHyphen (collapseHyphens x))
      = joinTokens (tokens x) := by
  have hch := collapseHyphens_chain' x
  rw [dropOneLeadingHyphen_eq _ hch]
  rw [dropOneTrailingHyphen_eq _ (chain'_dropWhile _ hch)]
  exact trimAll_collapseHyphens x.length x le_rfl

theorem tokens_map_trimStart (l : List Char) :
    tokens ((trimWsStart l).map slugChar) = tokens (l.map slugChar) := by
  unfold trimWsStart
  induction l with
  | nil => rfl
  | cons a t ih =>
    by_cases ha : jsWs a
    · rw [List.dropWhile_cons_of_pos ha, ih, List.map_cons, slugChar_of_jsWs a ha,
        tokens_hyphen_cons]
    · rw [List.dropWhile_cons_of_neg (by simp [ha])]

theorem tokens_map_trimEnd (l : List Char) :
    tokens ((trimWsEnd l).map slugChar) = tokens (l.map slugChar) := by
  unfold trimWsEnd
  have hdecomp : l = (l.reverse.dropWhile jsWs).reverse ++ (l.reverse.takeWhile jsWs).reverse := by
    have h0 := congrArg List.reverse (List.takeWhile_append_dropWhile jsWs l.reverse)
    rw [List.reverse_append, List.reverse_reverse] at h0
    exact h0.symm
  have hh : ∀ c ∈ ((l.reverse.takeWhile jsWs).reverse.map slugChar), c = '-' := by
    intro c hcmem
    obtain ⟨a, hamem, rfl⟩ := List.mem_map.mp hcmem
    exact slugChar_of_jsWs a (List.mem_takeWhile_imp (List.mem_reverse.mp hamem))
  conv_rhs => rw [hdecomp]
  rw [List.map_append, tokens_append_hyphens _ hh]

theorem collapseWs_singleton_ws (c : Char) (hc : jsWs c = true) :
    collapseWs [c] = [' '] := by
  simp [collapseWs, hc]

theorem collapseWs_singleton_nws (c : Char) (hc : jsWs c = false) :
    collapseWs [c] = [c] := by
  simp [collapseWs, hc]

theorem collapseWs_cons₂_ws_ws (c c2 : Char) (cs : List Char)
    (hc : jsWs c = true) (h2 : jsWs c2 = true) :
    collapseWs (c :: c2 :: cs) = collapseWs (c2 :: cs) := by
  simp [collapseWs, hc, h2]

theorem collapseWs_cons₂_ws_nws (c c2 : Char) (cs : List Char)
    (hc : jsWs c = true) (h2 : jsWs c2 = false) :
    collapseWs (c :: c2 :: cs) = ' ' :: collapseWs (c2 :: cs) := by
  simp [collapseWs, hc, h2]

theorem collapseWs_cons₂_nws (c c2 : Char) (cs : List Char) (hc : jsWs c = false) :
    collapseWs (c :: c2 :: cs) = c :: collapseWs (c2 :: cs) := by
  simp [collapseWs, hc]

theorem collapseWs_ws_head : ∀ (cs : List Char) (c : Char), jsWs c = true →
    ∃ z, collapseWs (c :: cs) = ' ' :: z := by
  intro cs
  induction cs with
  | nil => intro c hc; exact ⟨[], collapseWs_singleton_ws c hc⟩
  | cons c2 cs' ih =>
    intro c hc
    by_cases h2 : jsWs c2
    · obtain ⟨z, hz⟩ := ih c2 h2
      exact ⟨z, by rw [collapseWs_cons₂_ws_ws c c2 cs' hc h2, hz]⟩
    · exact ⟨collapseWs (c2 :: cs'),
        collapseWs_cons₂_ws_nws c c2 cs' hc (by simpa using h2)⟩

theorem tokens_map_collapseWs_aux : ∀ (l : List Char),
    tokens ((collapseWs l).map slugChar) = tokens (l.map slugChar) ∧
    ((collapseWs l).map slugChar).takeWhile (· ≠ '-')
      = (l.map slugChar).takeWhile (· ≠ '-') ∧
    tokens (((collapseWs l).map slugChar).dropWhile (· ≠ '-'))
      = tokens ((l.map slugChar).dropWhile (· ≠ '-')) := by
  intro l
  induction l using collapseWs.induct with
  | case1 => exact ⟨rfl, rfl, rfl⟩
  | case2 c hc =>
    rw [collapseWs_singleton_ws c hc]
    rw [show ([c].map slugChar) = ['-'] from by
      simp [slugChar_of_jsWs c hc]]
    rw [show ([' '].map slugChar) = ['-'] from by decide]
    exact ⟨rfl, rfl, rfl⟩
  | case3 c hc =>
    rw [collapseWs_singleton_nws c (by simpa using hc)]
    exact ⟨rfl, rfl, rfl⟩
  | case4 c c2 cs hc h2 ih =>
    obtain ⟨ih1, ih2, ih3⟩ := ih
    rw [collapseWs_cons₂_ws_ws c c2 cs hc h2]
    rw [List.map_cons, slugChar_of_jsWs c hc]
    obtain ⟨z, hz⟩ := collapseWs_ws_head cs c2 h2
    refine ⟨?_, ?_, ?_⟩
    · rw [tokens_hyphen_cons]
      exact ih1
    · rw [hz, List.map_cons]
      rw [show slugChar ' ' = '-' from by decide]
      rw [List.takeWhile_cons_of_neg (by simp), List.takeWhile_cons_of_neg (by simp)]
    · rw [hz, List.map_cons]
      rw [show slugChar ' ' = '-' from by decide]
      rw [List.dropWhile_cons_of_neg (by simp), List.dropWhile_cons_of_neg (by simp)]
      rw [tokens_hyphen_cons, tokens_hyphen_cons]
      rw [hz, List.map_cons, show slugChar ' ' = '-' from by decide,
        tokens_hyphen_cons] at ih1
      exact ih1
  | case5 c c2 cs hc h2 ih =>
    obtain ⟨ih1, ih2, ih3⟩ := ih
    rw [collapseWs_cons₂_ws_nws c c2 cs hc (by simpa using h2)]
    rw [List.map_cons, List.map_cons, slugChar_of_jsWs c hc,
      show slugChar ' ' = '-' from by decide]
    refine ⟨?_, ?_, ?_⟩
    · rw [tokens_hyphen_cons, tokens_hyphen_cons]
      exact ih1
    · rw [List.takeWhile_cons_of_neg (by simp), List.takeWhile_cons_of_neg (by simp)]
    · rw [List.dropWhile_cons_of_neg (by simp), List.dropWhile_cons_of_neg (by simp)]
      rw [tokens_hyphen_cons, tokens_hyphen_cons]
      exact ih1
  | case6 c c2 cs hc ih =>
    obtain ⟨ih1, ih2, ih3⟩ := ih
    rw [collapseWs_cons₂_nws c c2 cs (by simpa using hc)]
    rw [List.map_cons, List.map_cons]
    by_cases hg : slugChar c = '-'
    · rw [hg]
      refine ⟨?_, ?_, ?_⟩
      · rw [tokens_hyphen_cons, tokens_hyphen_cons]
        exact ih1
      · rw [List.takeWhile_cons_of_neg (by simp), List.takeWhile_cons_of_neg (by simp)]
      · rw [List.dropWhile_cons_of_neg (by simp), List.dropWhile_cons_of_neg (by simp)]
        rw [tokens_hyphen_cons, tokens_hyphen_cons]
        exact ih1
    · refine ⟨?_, ?_, ?_⟩
      · rw [tokens_word_cons _ _ hg, tokens_word_cons _ _ hg, ih2, ih3]
      · rw [List.takeWhile_cons_of_pos (by simp [hg]), List.takeWhile_cons_of_pos (by simp [hg]),
          ih2]
      · rw [List.dropWhile_cons_of_pos (by simp [hg]), List.dropWhile_cons_of_pos (by simp [hg])]
        exact ih3

theorem tokens_map_collapseWs (l : List Char) :
    tokens ((collapseWs l).map slugChar) = tokens (l.map slugChar) :=
  (tokens_map_collapseWs_aux l).1

theorem jsWs_wsToSp (c : Char) : jsWs (wsToSp c) = jsWs c := by
  unfold wsToSp
  by_cases h : jsWs c
  · rw [if_pos h, h]
    decide
  · rw [if_neg h]

theorem mk_eq_empty_iff (l : List Char) : String.mk l = "" ↔ l = [] := by
  constructor
  · intro h
    have h2 := congrArg String.data h
    simpa using h2
  · intro h
    rw [h]

theorem trimCore_empty_iff (y : List Char) :
    trimWsEnd (trimWsStart y) = [] ↔ ∀ c ∈ y, jsWs c = true := by
  constructor
  · intro h c hc
    unfold trimWsEnd trimWsStart at h
    rw [List.reverse_eq_nil_iff, List.dropWhile_eq_nil_iff] at h
    have h' : ∀ x ∈ y.dropWhile jsWs, jsWs x = true :=
      fun x hx => h x (List.mem_reverse.mpr hx)
    have hnil : y.dropWhile jsWs = [] := by
      cases hd : y.dropWhile jsWs with
      | nil => rfl
      | cons a t =>
        have hna := dropWhile_head_not y a t hd
        have hpa := h' a (by rw [hd]; exact List.mem_cons_self _ _)
        rw [hna] at hpa
        exact absurd hpa (by simp)
    rw [List.dropWhile_eq_nil_iff] at hnil
    exact hnil c hc
  · intro h
    unfold trimWsStart trimWsEnd
    rw [dropWhile_eq_nil_of_all h]
    rfl

theorem norm_empty_iff (s : String) : norm s = "" ↔ ∀ c ∈ s.data, jsWs c = true := by
  unfold norm
  rw [mk_eq_empty_iff, trimCore_empty_iff]
  constructor
  · intro h c hc
    rw [← jsWs_wsToSp c]
    exact h (wsToSp c) (List.mem_map_of_mem _ hc)
  · intro h c hc
    obtain ⟨a, ha, rfl⟩ := List.mem_map.mp hc
    rw [jsWs_wsToSp]
    exact h a ha

theorem mem_collapseWs_sub : ∀ (l : List Char), ∀ c ∈ collapseWs l, c = ' ' ∨ c ∈ l := by
  intro l
  induction l using collapseWs.induct with
  | case1 => intro c hc; exact absurd hc (List.not_mem_nil _)
  | case2 c' hc' =>
    intro c hc
    rw [collapseWs_singleton_ws c' hc'] at hc
    exact Or.inl (List.mem_singleton.mp hc)
  | case3 c' hc' =>
    intro c hc
    rw [collapseWs_singleton_nws c' (by simpa using hc')] at hc
    exact Or.inr hc
  | case4 c' c2 cs hc' h2 ih =>
    intro c hc
    rw [collapseWs_cons₂_ws_ws c' c2 cs hc' h2] at hc
    rcases ih c hc with h | h
    · exact Or.inl h
    · exact Or.inr (List.mem_cons_of_mem _ h)
  | case5 c' c2 cs hc' h2 ih =>
    intro c hc
    rw [collapseWs_cons₂_ws_nws c' c2 cs hc' (by simpa using h2)] at hc
    rcases List.mem_cons.mp hc with rfl | h
    · exact Or.inl rfl
    · rcases ih c h with h' | h'
      · exact Or.inl h'
      · exact Or.inr (List.mem_cons_of_mem _ h')
  | case6 c' c2 cs hc' ih =>
    intro c hc
    rw [collapseWs_cons₂_nws c' c2 cs (by simpa using hc')] at hc
    rcases List.mem_cons.mp hc with rfl | h
    · exact Or.inr (List.mem_cons_self _ _)
    · rcases ih c h with h' | h'
      · exact Or.inl h'
      · exact Or.inr (List.mem_cons_of_mem _ h')

theorem mem_collapseWs_of_nws : ∀ (l : List Char), ∀ c ∈ l, jsWs c = false →
    c ∈ collapseWs l := by
  intro l
  induction l using collapseWs.induct with
  | case1 => intro c hc _; exact absurd hc (List.not_mem_nil _)
  | case2 c' hc' =>
    intro c hc hnws
    have hcc : c = c' := List.mem_singleton.mp hc
    subst hcc
    rw [hc'] at hnws
    exact absurd hnws (by simp)
  | case3 c' hc' =>
    intro c hc hnws
    rw [collapseWs_singleton_nws c' (by simpa using hc')]
    exact hc
  | case4 c' c2 cs hc' h2 ih =>
    intro c hc hnws
    rw [collapseWs_cons₂_ws_ws c' c2 cs hc' h2]
    rcases List.mem_cons.mp hc with rfl | h
    · rw [hc'] at hnws
      exact absurd hnws (by simp)
    · exact ih c h hnws
  | case5 c' c2 cs hc' h2 ih =>
    intro c hc hnws
    rw [collapseWs_cons₂_ws_nws c' c2 cs hc' (by simpa using h2)]
    rcases List.mem_cons.mp hc with rfl | h
    · rw [hc'] at hnws
      exact absurd hnws (by simp)
    · exact List.mem_cons_of_mem _ (ih c h hnws)
  | case6 c' c2 cs hc' ih =>
    intro c hc hnws
    rw [collapseWs_cons₂_nws c' c2 cs (by simpa using hc')]
    rcases List.mem_cons.mp hc with rfl | h
    · exact List.mem_cons_self _ _
    · exact List.mem_cons_of_mem _ (ih c h hnws)

theorem specNormalize_empty_iff (s : String) :
    specNormalize s = "" ↔ ∀ c ∈ s.data, jsWs c = true := by
  unfold specNormalize
  rw [mk_eq_empty_iff, trimCore_empty_iff]
  constructor
  · intro h c hc
    by_contra hws
    have hws' : jsWs c = false := by
      cases hq : jsWs c
      · rfl
      · exact absurd hq hws
    have hmem := mem_collapseWs_of_nws s.data c hc hws'
    have := h c hmem
    rw [hws'] at this
    exact absurd this (by simp)
  · intro h c hc
    rcases mem_collapseWs_sub s.data c hc with rfl | hmem
    · decide
    · exact h c hmem

theorem slugTxt_data (s : String) (h : ¬ norm s = "") :
    (slugTxt s).data = joinTokens (tokens (((norm s).data).map slugChar)) := by
  simp only [slugTxt]
  rw [if_neg h, map_hyph_toLower]
  exact codeTrim_collapseHyphens _

theorem tokens_code_norm (s : String) :
    tokens (((norm s).data).map slugChar) = tokens ((s.data).map slugChar) := by
  unfold norm
  rw [show (String.mk (trimWsEnd (trimWsStart (s.data.map wsToSp)))).data
      = trimWsEnd (trimWsStart (s.data.map wsToSp)) from rfl]
  rw [tokens_map_trimEnd, tokens_map_trimStart, map_wsToSp_slugChar]

theorem tokens_spec_norm (s : String) :
    tokens (((specNormalize s).data).map slugChar) = tokens ((s.data).map slugChar) := by
  unfold specNormalize
  rw [show (String.mk (trimWsEnd (trimWsStart (collapseWs s.data)))).data
      = trimWsEnd (trimWsStart (collapseWs s.data)) from rfl]
  rw [tokens_map_trimEnd, tokens_map_trimStart, tokens_map_collapseWs]

theorem idify_dfn_none (t : String) :
    idify "dfn" t none = if t = "" then "dfn" else "dfn" ++ "-" ++ t := by
  by_cases h : t = ""
  · rw [if_pos h, h]
    decide
  · rw [if_neg h]
    unfold idify
    rw [show ["dfn", t].filter (· ≠ "") = ["dfn", t] from by simp [h]]
    rfl

/-- C3 (amended): for every element without an explicit id, the identifier the
resolver derives (modelled with the empty document id set, so no collision
suffix applies) equals the claimed pipeline with one correction: when the
processed text is empty after hyphen trimming the identifier is the bare
namespace token `dfn`, with no trailing hyphen, because `idify` filters out
empty components before joining with hyphens. -/
theorem c3_slug_pipeline_amended (s : String) (u : Bool) :
    slugify [] ⟨none, s⟩ "dfn" u = specSlugC3Amended s := by
  have hslug : slugify [] ⟨none, s⟩ "dfn" u = idify "dfn" (slugTxt s) none := by
    cases u with
    | true => exact slugify_none_fresh [] s "dfn" (List.not_mem_nil _)
    | false => simp [slugify]
  rw [hslug]
  by_cases h : norm s = ""
  · have hspec : specNormalize s = "" := (specNormalize_empty_iff s).mpr ((norm_empty_iff s).mp h)
    have h1 : slugTxt s = "empty" := by
      simp only [slugTxt, h]
      decide
    have h2 : specSlugC3Amended s = "dfn-empty" := by
      simp only [specSlugC3Amended, hspec]
      decide
    rw [h1, h2]
    decide
  · have hspec : ¬ specNormalize s = "" :=
      fun hq => h ((norm_empty_iff s).mpr ((specNormalize_empty_iff s).mp hq))
    have hcode : (slugTxt s).data = joinTokens (tokens ((s.data).map slugChar)) := by
      rw [slugTxt_data s h, tokens_code_norm]
    have hspec2 : specSlugC3Amended s =
        (if joinTokens (tokens ((s.data).map slugChar)) = [] then "dfn"
         else "dfn" ++ "-" ++ String.mk (joinTokens (tokens ((s.data).map slugChar)))) := by
      simp only [specSlugC3Amended]
      rw [if_neg hspec, map_hyph_toLower]
      rw [trimAll_collapseHyphens _ _ le_rfl]
      rw [tokens_spec_norm]
    rw [hspec2, idify_dfn_none]
    have hstr : slugTxt s = String.mk (joinTokens (tokens ((s.data).map slugChar))) :=
      string_ext _ _ hcode
    rw [hstr]
    by_cases hJ : joinTokens (tokens ((s.data).map slugChar)) = []
    · rw [if_pos hJ, if_pos (by rw [hJ])]
    · rw [if_neg hJ, if_neg (fun hq => hJ (by
        have h3 := congrArg String.data hq
        simpa using h3))]

/-- C3 (counterexample): on the text `"!"` (whose processed slug text is empty)
the source derives the id `dfn`, while the claimed pipeline, which always
prefixes the namespace token joined by a hyphen, yields `dfn-`; the two
disagree. -/
theorem c3_slug_pipeline_counterexample :
    slugify [] ⟨none, "!"⟩ "dfn" true = "dfn" ∧ specSlugC3 "!" = "dfn-" ∧
    slugify [] ⟨none, "!"⟩ "dfn" true ≠ specSlugC3 "!" := by
  refine ⟨by decide, by decide, by decide⟩
end SISL
